import Mathlib

/-!
# Task Manager Pro: the task collection manager of `script.js`

A shallow embedding of the `TaskManager` class: the task collection, its
persistence in `localStorage`, the create / update / delete / toggle operations
and the filter and sort views, followed by theorems about them.

Conventions of the embedding.

* A JavaScript string is the list of its UTF-16 code units (`JSString`).
* A number produced by a comparator is `Option Int`, where `none` is `NaN`;
  every number that arises there is an integer or `NaN`.
* The DOM (`render`, `resetForm` apart from the edit slot) is not modelled.
* `Date.now()`, `new Date().toISOString()`, `confirm(...)` and the parsing of a
  date string by `new Date(s)` are inputs of the operations.
* `JSON.stringify` and `JSON.parse` are modelled on code units; `Array.prototype.sort`
  is modelled as a stable insertion sort (see `Engine`).
-/

namespace TaskManager

/-! ## JavaScript strings -/

/-- A JavaScript string: its UTF-16 code units. -/
abbrev JSString := List Nat

/-- The code units of a Lean string literal. -/
def utf16 (s : String) : JSString :=
  s.toList.flatMap fun c =>
    if c.toNat < 65536 then [c.toNat]
    else [55296 + (c.toNat - 65536) / 1024, 56320 + (c.toNat - 65536) % 1024]

/-- White space and line terminators of ECMAScript, the code units that
`String.prototype.trim` removes. -/
def isWhiteSpace (c : Nat) : Bool :=
  c == 9 || c == 10 || c == 11 || c == 12 || c == 13 || c == 32 || c == 160 ||
  c == 5760 || (8192 ≤ c && c ≤ 8202) || c == 8232 || c == 8233 || c == 8239 ||
  c == 8287 || c == 12288 || c == 65279

/-- The method `String.prototype.trim`. -/
def trim (s : JSString) : JSString :=
  ((s.dropWhile isWhiteSpace).reverse.dropWhile isWhiteSpace).reverse

/-- Decimal digits of `n`, most significant first, in front of `acc`. -/
def decimalDigits : Nat → Nat → JSString → JSString
  | 0, _, acc => acc
  | fuel + 1, n, acc =>
    if n < 10 then (48 + n) :: acc
    else decimalDigits fuel (n / 10) ((48 + n % 10) :: acc)

/-- The method `Number.prototype.toString` on an integer below `10^21` in
absolute value, the range of every time value. -/
def numberToString (n : Int) : JSString :=
  if n < 0 then 45 :: decimalDigits (n.natAbs + 1) n.natAbs []
  else decimalDigits (n.natAbs + 1) n.natAbs []

/-! ## Data model -/

/-- The values the field `dueDate` takes: absent, `null`, or a string. -/
inductive DueDate where
  | undefined
  | null
  | str (s : JSString)
  deriving DecidableEq, Repr

/-- The truthiness of a `dueDate`: `!t.dueDate` is `true` exactly for
`undefined`, `null` and the empty string. -/
def DueDate.truthy : DueDate → Bool
  | .undefined => false
  | .null => false
  | .str s => !s.isEmpty

/-- A task object. `updatedAt` is absent until the first update. -/
structure Task where
  id : JSString
  title : JSString
  description : JSString
  dueDate : DueDate
  priority : JSString
  completed : Bool
  createdAt : JSString
  updatedAt : Option JSString
  deriving DecidableEq, Repr

/-- The object `taskData` built by `handleSubmit` from the form fields. -/
structure TaskData where
  title : JSString
  description : JSString
  dueDate : DueDate
  priority : JSString
  deriving DecidableEq, Repr

/-! ## JSON values and `JSON.stringify` -/

mutual
/-- A JSON value. A number keeps its token; its value as a double is never
needed, since no field of a task is a number. -/
inductive JSON where
  | null
  | bool (b : Bool)
  | number (token : JSString)
  | string (s : JSString)
  | array (elems : JSONList)
  | object (members : JSONMembers)
/-- The elements of a JSON array. -/
inductive JSONList where
  | nil
  | cons (head : JSON) (tail : JSONList)
/-- The members of a JSON object, in property order. -/
inductive JSONMembers where
  | nil
  | cons (key : JSString) (value : JSON) (tail : JSONMembers)
end

/-- The hexadecimal digit (lower case) of a value below 16. -/
def hexDigit (d : Nat) : Nat := if d < 10 then 48 + d else 87 + d

/-- The escape `\uXXXX` of a code unit. -/
def unicodeEscape (c : Nat) : JSString :=
  [92, 117, hexDigit (c / 4096 % 16), hexDigit (c / 256 % 16), hexDigit (c / 16 % 16),
    hexDigit (c % 16)]

def isHighSurrogate (c : Nat) : Bool := 55296 ≤ c && c ≤ 56319

def isLowSurrogate (c : Nat) : Bool := 56320 ≤ c && c ≤ 57343

/-- The quoting of one code unit that is not part of a surrogate pair
(`QuoteJSONString`). -/
def quoteUnit (c : Nat) : JSString :=
  if c = 8 then [92, 98]
  else if c = 9 then [92, 116]
  else if c = 10 then [92, 110]
  else if c = 12 then [92, 102]
  else if c = 13 then [92, 114]
  else if c = 34 then [92, 34]
  else if c = 92 then [92, 92]
  else if c < 32 || isHighSurrogate c || isLowSurrogate c then unicodeEscape c
  else [c]

/-- The body of a quoted string: a surrogate pair is copied, every other code
unit goes through `quoteUnit`. -/
def quoteBody : JSString → JSString
  | [] => []
  | [c] => quoteUnit c
  | c :: d :: rest =>
    if isHighSurrogate c && isLowSurrogate d then c :: d :: quoteBody rest
    else quoteUnit c ++ quoteBody (d :: rest)

/-- The abstract operation `QuoteJSONString`. -/
def quote (s : JSString) : JSString := 34 :: (quoteBody s ++ [34])

mutual
/-- The function `JSON.stringify` without indentation. -/
def stringify : JSON → JSString
  | .null => utf16 "null"
  | .bool true => utf16 "true"
  | .bool false => utf16 "false"
  | .number token => token
  | .string s => quote s
  | .array elems => 91 :: (stringifyElems elems ++ [93])
  | .object members => 123 :: (stringifyMembers members ++ [125])
/-- The elements of an array, separated by commas. -/
def stringifyElems : JSONList → JSString
  | .nil => []
  | .cons x .nil => stringify x
  | .cons x (.cons y ys) => stringify x ++ 44 :: stringifyElems (.cons y ys)
/-- The members of an object, separated by commas. -/
def stringifyMembers : JSONMembers → JSString
  | .nil => []
  | .cons k v .nil => quote k ++ 58 :: stringify v
  | .cons k v (.cons k2 v2 ms) =>
    quote k ++ 58 :: (stringify v ++ 44 :: stringifyMembers (.cons k2 v2 ms))
end

/-! ## The collection as a JSON value -/

/-- The member `dueDate` of a task object: `JSON.stringify` leaves out a
property whose value is `undefined`. -/
def dueDateMember : DueDate → JSONMembers → JSONMembers
  | .undefined, rest => rest
  | .null, rest => .cons (utf16 "dueDate") .null rest
  | .str s, rest => .cons (utf16 "dueDate") (.string s) rest

/-- The member `updatedAt`, present once the task has been updated. -/
def updatedAtMember : Option JSString → JSONMembers
  | none => .nil
  | some s => .cons (utf16 "updatedAt") (.string s) .nil

/-- The JSON value of a task object, its properties in the order in which
`createTask` and `updateTask` define them. -/
def taskToJSON (t : Task) : JSON :=
  .object
    (.cons (utf16 "id") (.string t.id)
      (.cons (utf16 "title") (.string t.title)
        (.cons (utf16 "description") (.string t.description)
          (dueDateMember t.dueDate
            (.cons (utf16 "priority") (.string t.priority)
              (.cons (utf16 "completed") (.bool t.completed)
                (.cons (utf16 "createdAt") (.string t.createdAt)
                  (updatedAtMember t.updatedAt))))))))

def tasksToJSONList : List Task → JSONList
  | [] => .nil
  | t :: ts => .cons (taskToJSON t) (tasksToJSONList ts)

/-- The JSON value of the array `this.tasks`. -/
def tasksToJSON (tasks : List Task) : JSON := .array (tasksToJSONList tasks)

/-- The value of property `k` of a parsed object: `JSON.parse` keeps the last
of several members with one key. -/
def JSONMembers.lookup (k : JSString) : JSONMembers → Option JSON
  | .nil => none
  | .cons key value tail =>
    match JSONMembers.lookup k tail with
    | some v => some v
    | none => if key = k then some value else none

def stringField (k : String) (ms : JSONMembers) : Option JSString :=
  match ms.lookup (utf16 k) with
  | some (.string s) => some s
  | _ => none

/-- The property `dueDate` of a parsed object, when it is absent, `null` or a
string. -/
def dueDateField (ms : JSONMembers) : Option DueDate :=
  match ms.lookup (utf16 "dueDate") with
  | none => some .undefined
  | some .null => some .null
  | some (.string d) => some (.str d)
  | some _ => none

/-- The property `updatedAt` of a parsed object, when it is absent or a
string. -/
def updatedAtField (ms : JSONMembers) : Option (Option JSString) :=
  match ms.lookup (utf16 "updatedAt") with
  | none => some none
  | some (.string u) => some (some u)
  | some _ => none

/-- A parsed value read as a task of the data model; `none` when it is not an
object with the fields of a task. -/
def taskOfJSON : JSON → Option Task
  | .object ms =>
    match stringField "id" ms, stringField "title" ms, stringField "description" ms,
      dueDateField ms, stringField "priority" ms, ms.lookup (utf16 "completed"),
      stringField "createdAt" ms, updatedAtField ms with
    | some id, some title, some description, some dueDate, some priority,
      some (.bool completed), some createdAt, some updatedAt =>
      some ⟨id, title, description, dueDate, priority, completed, createdAt, updatedAt⟩
    | _, _, _, _, _, _, _, _ => none
  | _ => none

def tasksOfJSONList : JSONList → Option (List Task)
  | .nil => some []
  | .cons x xs =>
    match taskOfJSON x, tasksOfJSONList xs with
    | some t, some ts => some (t :: ts)
    | _, _ => none

/-- A parsed value read as a task collection. -/
def tasksOfJSON : JSON → Option (List Task)
  | .array elems => tasksOfJSONList elems
  | _ => none

/-! ## `JSON.parse` -/

/-- JSON white space: tab, line feed, carriage return, space. -/
def skipWS : JSString → JSString
  | [] => []
  | c :: rest => if c = 9 ∨ c = 10 ∨ c = 13 ∨ c = 32 then skipWS rest else c :: rest

def hexValue (c : Nat) : Option Nat :=
  if 48 ≤ c ∧ c ≤ 57 then some (c - 48)
  else if 97 ≤ c ∧ c ≤ 102 then some (c - 87)
  else if 65 ≤ c ∧ c ≤ 70 then some (c - 55)
  else none

/-- The code unit a single-character escape stands for. -/
def unescape (e : Nat) : Option Nat :=
  if e = 34 then some 34
  else if e = 92 then some 92
  else if e = 47 then some 47
  else if e = 98 then some 8
  else if e = 102 then some 12
  else if e = 110 then some 10
  else if e = 114 then some 13
  else if e = 116 then some 9
  else none

/-- A string after its opening quote: the code units up to the closing quote
and the text that follows it. -/
def parseStringBody : JSString → Option (JSString × JSString)
  | [] => none
  | c :: rest =>
    if c = 34 then some ([], rest)
    else if c = 92 then
      match rest with
      | [] => none
      | e :: rest2 =>
        if e = 117 then
          match rest2 with
          | h1 :: h2 :: h3 :: h4 :: rest3 =>
            match hexValue h1, hexValue h2, hexValue h3, hexValue h4 with
            | some x, some y, some z, some w =>
              (parseStringBody rest3).map fun p => ((((x * 16 + y) * 16 + z) * 16 + w) :: p.1, p.2)
            | _, _, _, _ => none
          | _ => none
        else
          match unescape e with
          | some u => (parseStringBody rest2).map fun p => (u :: p.1, p.2)
          | none => none
    else if c < 32 then none
    else (parseStringBody rest).map fun p => (c :: p.1, p.2)

def isDigit (c : Nat) : Bool := 48 ≤ c && c ≤ 57

/-- One or more digits. -/
def parseDigits (s : JSString) : Option (JSString × JSString) :=
  if (s.takeWhile isDigit).isEmpty then none else some (s.takeWhile isDigit, s.dropWhile isDigit)

/-- The integer part of a number: `0`, or a digit other than `0` followed by
digits. -/
def parseIntPart : JSString → Option (JSString × JSString)
  | [] => none
  | c :: rest =>
    if c = 48 then some ([48], rest)
    else if isDigit c then some (c :: rest.takeWhile isDigit, rest.dropWhile isDigit)
    else none

/-- The optional fraction of a number. -/
def parseFraction : JSString → Option (JSString × JSString)
  | [] => some ([], [])
  | c :: rest =>
    if c = 46 then (parseDigits rest).map fun p => (46 :: p.1, p.2)
    else some ([], c :: rest)

/-- The optional exponent of a number. -/
def parseExponent : JSString → Option (JSString × JSString)
  | [] => some ([], [])
  | c :: rest =>
    if c = 101 ∨ c = 69 then
      match rest with
      | [] => none
      | g :: rest2 =>
        if g = 43 ∨ g = 45 then (parseDigits rest2).map fun p => (c :: g :: p.1, p.2)
        else (parseDigits rest).map fun p => (c :: p.1, p.2)
    else some ([], c :: rest)

/-- The optional minus sign of a number. -/
def parseSign : JSString → JSString × JSString
  | [] => ([], [])
  | c :: rest => if c = 45 then ([45], rest) else ([], c :: rest)

/-- A JSON number token. -/
def parseNumber (s : JSString) : Option (JSString × JSString) :=
  match parseIntPart (parseSign s).2 with
  | none => none
  | some (i, s1) =>
    match parseFraction s1 with
    | none => none
    | some (f, s2) =>
      match parseExponent s2 with
      | none => none
      | some (e, s3) => some ((parseSign s).1 ++ i ++ f ++ e, s3)

/-- The text after the literal `lit`, when `s` starts with it. -/
def stripLiteral : JSString → JSString → Option JSString
  | [], s => some s
  | _ :: _, [] => none
  | l :: lit, c :: s => if l = c then stripLiteral lit s else none

mutual
/-- A JSON value at the head of the text, with the text that follows it.
`fuel` bounds the number of nested calls. -/
def parseValue : Nat → JSString → Option (JSON × JSString)
  | 0, _ => none
  | fuel + 1, s =>
    match skipWS s with
    | [] => none
    | c :: rest =>
      if c = 34 then (parseStringBody rest).map fun p => (JSON.string p.1, p.2)
      else if c = 91 then
        match skipWS rest with
        | [] => none
        | d :: rest2 =>
          if d = 93 then some (JSON.array .nil, rest2)
          else (parseElems fuel (d :: rest2)).map fun p => (JSON.array p.1, p.2)
      else if c = 123 then
        match skipWS rest with
        | [] => none
        | d :: rest2 =>
          if d = 125 then some (JSON.object .nil, rest2)
          else (parseMembers fuel (d :: rest2)).map fun p => (JSON.object p.1, p.2)
      else if c = 116 then (stripLiteral (utf16 "rue") rest).map fun r => (JSON.bool true, r)
      else if c = 102 then (stripLiteral (utf16 "alse") rest).map fun r => (JSON.bool false, r)
      else if c = 110 then (stripLiteral (utf16 "ull") rest).map fun r => (JSON.null, r)
      else (parseNumber (c :: rest)).map fun p => (JSON.number p.1, p.2)
/-- The elements of an array up to and including the closing bracket. -/
def parseElems : Nat → JSString → Option (JSONList × JSString)
  | 0, _ => none
  | fuel + 1, s =>
    match parseValue fuel s with
    | none => none
    | some (v, r) =>
      match skipWS r with
      | [] => none
      | c :: r2 =>
        if c = 44 then (parseElems fuel r2).map fun p => (JSONList.cons v p.1, p.2)
        else if c = 93 then some (JSONList.cons v .nil, r2)
        else none
/-- The members of an object up to and including the closing brace. -/
def parseMembers : Nat → JSString → Option (JSONMembers × JSString)
  | 0, _ => none
  | fuel + 1, s =>
    match skipWS s with
    | [] => none
    | q :: s1 =>
      if q = 34 then
        match parseStringBody s1 with
        | none => none
        | some (k, s2) =>
          match skipWS s2 with
          | [] => none
          | colon :: s3 =>
            if colon = 58 then
              match parseValue fuel s3 with
              | none => none
              | some (v, r) =>
                match skipWS r with
                | [] => none
                | c :: r2 =>
                  if c = 44 then
                    (parseMembers fuel r2).map fun p => (JSONMembers.cons k v p.1, p.2)
                  else if c = 125 then some (JSONMembers.cons k v .nil, r2)
                  else none
            else none
      else none
end

/-- The function `JSON.parse`: the value of a JSON text, `none` when the text
is not JSON (a `SyntaxError`). A nested call is made after a code unit has
been consumed, or directly by a call that was, so twice the length of the text
is fuel enough (`parseValue_fuel_enough`). -/
def jsonParse (s : JSString) : Option JSON :=
  match parseValue (2 * s.length + 2) s with
  | none => none
  | some (v, r) => if (skipWS r).isEmpty then some v else none

/-! ## The store and `localStorage` -/

/-- The object `localStorage`: the string stored under each key, if any. -/
abbrev Storage := String → Option JSString

def Storage.getItem (ls : Storage) (key : String) : Option JSString := ls key

def Storage.setItem (ls : Storage) (key : String) (value : JSString) : Storage :=
  fun k => if k = key then some value else ls k

/-- The fields of a `TaskManager` that the operations read and write, and the
`localStorage` it persists to. -/
structure State where
  tasks : List Task
  currentFilter : String
  currentSort : String
  editingTaskId : Option JSString
  localStorage : Storage

/-- The method `loadTasks`: `JSON.parse` of the stored string when there is a
non-empty one, otherwise the empty array. `Except.error` is an exception that
leaves the method. -/
def loadTasks (ls : Storage) : Except String JSON :=
  match ls.getItem "tasks" with
  | none => .ok (.array .nil)
  | some tasks =>
    if tasks.isEmpty then .ok (.array .nil)
    else
      match jsonParse tasks with
      | some v => .ok v
      | none => .error "SyntaxError"

/-- The outcome of `new TaskManager()`. -/
inductive Constructed where
  /-- An exception left the constructor. -/
  | threw (error : String)
  /-- The stored text is JSON but not an array of tasks of the data model; the
  constructor assigns it to `this.tasks` all the same. -/
  | foreign (value : JSON)
  /-- The store, with the loaded collection. -/
  | store (s : State)

/-- The constructor: `this.tasks = this.loadTasks()` and the initial filter,
sort mode and edit slot. -/
def construct (ls : Storage) : Constructed :=
  match loadTasks ls with
  | .error e => .threw e
  | .ok v =>
    match tasksOfJSON v with
    | none => .foreign v
    | some tasks => .store ⟨tasks, "all", "date-asc", none, ls⟩

/-- The method `saveTasks`. -/
def saveTasks (s : State) : State :=
  { s with localStorage := s.localStorage.setItem "tasks" (stringify (tasksToJSON s.tasks)) }

/-- The part of `resetForm` that touches the store: the edit slot is cleared. -/
def resetForm (s : State) : State := { s with editingTaskId := none }

/-- The method `createTask`; `now` is the value of `Date.now()` and `iso` that
of `new Date().toISOString()`. -/
def createTask (s : State) (now : Int) (iso : JSString) (taskData : TaskData) : State :=
  let task : Task :=
    { id := numberToString now
      title := trim taskData.title
      description := trim taskData.description
      dueDate := taskData.dueDate
      priority := taskData.priority
      completed := false
      createdAt := iso
      updatedAt := none }
  resetForm (saveTasks { s with tasks := task :: s.tasks })

/-- The object that `updateTask` stores at the index it found. -/
def updatedTask (old : Task) (iso : JSString) (taskData : TaskData) : Task :=
  { old with
    title := trim taskData.title
    description := trim taskData.description
    dueDate := taskData.dueDate
    priority := taskData.priority
    updatedAt := some iso }

/-- The method `updateTask`; `iso` is the value of `new Date().toISOString()`. -/
def updateTask (s : State) (iso : JSString) (id : JSString) (taskData : TaskData) : State :=
  match s.tasks.findIdx? (fun t => t.id == id) with
  | none => s
  | some taskIndex =>
    match s.tasks[taskIndex]? with
    | none => s
    | some old =>
      resetForm (saveTasks { s with tasks := s.tasks.set taskIndex (updatedTask old iso taskData) })

/-- The method `deleteTask`; `confirmed` is the answer of `confirm(...)`. -/
def deleteTask (s : State) (confirmed : Bool) (id : JSString) : State :=
  if confirmed then saveTasks { s with tasks := s.tasks.filter (fun t => t.id != id) }
  else s

/-- The method `toggleTaskCompletion`: the first task with the id is changed
in place. -/
def toggleTaskCompletion (s : State) (id : JSString) : State :=
  match s.tasks.findIdx? (fun t => t.id == id) with
  | none => s
  | some i =>
    match s.tasks[i]? with
    | none => s
    | some task => saveTasks { s with tasks := s.tasks.set i { task with completed := !task.completed } }

/-! ## Filtering -/

/-- The method `filterTasks`. -/
def filterTasks (s : State) (tasks : List Task) : List Task :=
  if s.currentFilter = "completed" then tasks.filter (fun t => t.completed)
  else if s.currentFilter = "pending" then tasks.filter (fun t => !t.completed)
  else tasks

/-! ## Sorting -/

/-- What the JavaScript engine contributes to `sortTasks`.

* `Array.prototype.sort` sorts stably when the comparator is consistent;
  ECMAScript leaves to the implementation which calls of the comparator are
  made, and the order of the result when the comparator is not consistent. The
  model is a stable insertion sort: each element in turn moves left past the
  elements it sorts before. `earlierFirst` says how a pair is put to the
  comparator: as `comparefn(e, item)` with the element `e` that stands before
  `item`, `item` moving when the answer is positive, or as `comparefn(item, e)`,
  `item` moving when the answer is negative. Engines of either kind exist, and
  on a consistent comparator the two agree.
* `parseDate s` is the time value of `new Date(s)`, `none` for an invalid date.
-/
structure Engine where
  earlierFirst : Bool
  parseDate : JSString → Option Int

/-- Subtraction of numbers, `none` being `NaN`. -/
def jsSub (x y : Option Int) : Option Int :=
  match x, y with
  | some a, some b => some (a - b)
  | _, _ => none

/-- The abstract operation `SortCompare` on the answer of the comparator: `NaN`
counts as `+0`. -/
def sortCompare (comparefn : Task → Task → Option Int) (x y : Task) : Int :=
  (comparefn x y).getD 0

/-- Whether `item` moves in front of the element `e` that stands before it. -/
def movesBefore (E : Engine) (comparefn : Task → Task → Option Int) (item e : Task) : Bool :=
  if E.earlierFirst then decide (0 < sortCompare comparefn e item)
  else decide (sortCompare comparefn item e < 0)

/-- One round of the insertion sort: `item` moves left from the end of the
sorted part as long as it sorts before its neighbour. -/
def insertSorted (E : Engine) (comparefn : Task → Task → Option Int) (item : Task)
    (sortedPart : List Task) : List Task :=
  (sortedPart.reverse.dropWhile (movesBefore E comparefn item)).reverse ++
    item :: (sortedPart.reverse.takeWhile (movesBefore E comparefn item)).reverse

/-- The method `Array.prototype.sort` with a comparator. -/
def arraySort (E : Engine) (comparefn : Task → Task → Option Int) (xs : List Task) : List Task :=
  xs.foldl (fun sortedPart item => insertSorted E comparefn item sortedPart) []

/-- The time value of `new Date(d)`. -/
def dateValue (E : Engine) : DueDate → Option Int
  | .undefined => none
  | .null => some 0
  | .str s => E.parseDate s

/-- The comparator of the mode `date-asc`. -/
def compareDateAsc (E : Engine) (a b : Task) : Option Int :=
  if !a.dueDate.truthy then some 1
  else if !b.dueDate.truthy then some (-1)
  else jsSub (dateValue E a.dueDate) (dateValue E b.dueDate)

/-- The comparator of the mode `date-desc`. -/
def compareDateDesc (E : Engine) (a b : Task) : Option Int :=
  if !a.dueDate.truthy then some 1
  else if !b.dueDate.truthy then some (-1)
  else jsSub (dateValue E b.dueDate) (dateValue E a.dueDate)

/-- The lookup `priorityOrder[p]` in `{ high: 3, medium: 2, low: 1 }` as a
number: a property the object lacks is `undefined`, one it inherits is a
function or an object, and each of these is `NaN` in a subtraction. -/
def priorityOrder (p : JSString) : Option Int :=
  if p = utf16 "high" then some 3
  else if p = utf16 "medium" then some 2
  else if p = utf16 "low" then some 1
  else none

/-- The comparator of the mode `priority-high`. -/
def comparePriorityHigh (a b : Task) : Option Int :=
  jsSub (priorityOrder b.priority) (priorityOrder a.priority)

/-- The comparator of the mode `priority-low`. -/
def comparePriorityLow (a b : Task) : Option Int :=
  jsSub (priorityOrder a.priority) (priorityOrder b.priority)

/-- The method `sortTasks`. -/
def sortTasks (E : Engine) (s : State) (tasks : List Task) : List Task :=
  if s.currentSort = "date-asc" then arraySort E (compareDateAsc E) tasks
  else if s.currentSort = "date-desc" then arraySort E (compareDateDesc E) tasks
  else if s.currentSort = "priority-high" then arraySort E comparePriorityHigh tasks
  else if s.currentSort = "priority-low" then arraySort E comparePriorityLow tasks
  else tasks

/-! ## Auxiliary definitions of the proofs -/

/-- The number that a string of decimal digits denotes. -/
def digitsValue (l : JSString) : Nat := l.foldl (fun v d => 10 * v + (d - 48)) 0

/-- Insertion into the sorted part held in reverse: `x` goes behind the leading
elements that satisfy `mv`. -/
def insertRev (mv : Task → Bool) (x : Task) : List Task → List Task
  | [] => [x]
  | e :: es => if mv e then e :: insertRev mv x es else x :: e :: es

/-- The priorities of the data model. -/
def ValidPriority (p : JSString) : Prop :=
  p = utf16 "low" ∨ p = utf16 "medium" ∨ p = utf16 "high"

instance (p : JSString) : Decidable (ValidPriority p) := by
  unfold ValidPriority
  infer_instance

/-- The rank of a priority in the words of the specification: high 3, medium
2, low 1; 0 stands for every other string. -/
def rank (p : JSString) : Int :=
  if p = utf16 "high" then 3 else if p = utf16 "medium" then 2 else if p = utf16 "low" then 1
  else 0

/-- The values of the fields of a task: strings, booleans and `null`. -/
def IsPrim : JSON → Prop
  | .string _ => True
  | .bool _ => True
  | .null => True
  | _ => False

/-- The members of an object from a list of keys and values. -/
def membersOfList : List (JSString × JSON) → JSONMembers
  | [] => .nil
  | p :: l => .cons p.1 p.2 (membersOfList l)

/-- The properties of a task object as a list. -/
def taskMemberList (t : Task) : List (JSString × JSON) :=
  [(utf16 "id", JSON.string t.id), (utf16 "title", JSON.string t.title),
    (utf16 "description", JSON.string t.description)] ++
  (match t.dueDate with
    | .undefined => []
    | .null => [(utf16 "dueDate", JSON.null)]
    | .str s => [(utf16 "dueDate", JSON.string s)]) ++
  [(utf16 "priority", JSON.string t.priority), (utf16 "completed", JSON.bool t.completed),
    (utf16 "createdAt", JSON.string t.createdAt)] ++
  (match t.updatedAt with
    | none => []
    | some u => [(utf16 "updatedAt", JSON.string u)])

/-- The sorted part of `arraySort` in reverse order. -/
def sortedRev (E : Engine) (comparefn : Task → Task → Option Int) (xs : List Task) : List Task :=
  xs.foldl (fun r item => insertRev (movesBefore E comparefn item) item r) []

/-- The store whose `localStorage` holds the serialisation of its collection. -/
def Persisted (s : State) : Prop :=
  s.localStorage.getItem "tasks" = some (stringify (tasksToJSON s.tasks))

/-! ## Example inputs -/

/-- An empty `localStorage`. -/
def exampleStorage : Storage := fun _ => none

/-- A task with the given id, dueDate and priority. -/
def exampleTask (id : String) (dueDate : DueDate) (priority : String) : Task :=
  ⟨utf16 id, utf16 "A", [], dueDate, utf16 priority, false, utf16 "2026-01-01T00:00:00.000Z",
    none⟩

/-- A store with the given collection and sort mode. -/
def exampleStore (tasks : List Task) (currentSort : String) : State :=
  ⟨tasks, "all", currentSort, none, exampleStorage⟩

/-- Form data with a title to trim. -/
def exampleData : TaskData := ⟨utf16 " B ", [], .null, utf16 "low"⟩

/-- An engine that puts the earlier element first to the comparator and knows
no date format. -/
def exampleEngine : Engine := ⟨true, fun _ => none⟩

/-- Four tasks with the priorities medium, high, low, high. -/
def examplePriorities : List Task :=
  [exampleTask "1" .null "medium", exampleTask "2" .null "high", exampleTask "3" .null "low",
    exampleTask "4" .null "high"]

/-! ## Numbers as strings -/

theorem decimalDigits_foldl (fuel : Nat) :
    ∀ (n : Nat) (acc : JSString), n < fuel →
      (decimalDigits fuel n acc).foldl (fun v d => 10 * v + (d - 48)) 0 =
        acc.foldl (fun v d => 10 * v + (d - 48)) n := by
  induction fuel with
  | zero => intro n acc h; omega
  | succ fuel ih =>
    intro n acc h
    unfold decimalDigits
    split
    · simp
    · rw [ih (n / 10) _ (by omega)]
      simp only [List.foldl_cons]
      congr 1
      omega

theorem digitsValue_decimalDigits (n : Nat) : digitsValue (decimalDigits (n + 1) n []) = n := by
  unfold digitsValue
  rw [decimalDigits_foldl (n + 1) n [] (by omega)]
  rfl

theorem decimalDigits_ge (fuel : Nat) :
    ∀ (n : Nat) (acc : JSString), ∀ x ∈ decimalDigits fuel n acc, 48 ≤ x ∨ x ∈ acc := by
  induction fuel with
  | zero => intro n acc x hx; exact Or.inr hx
  | succ fuel ih =>
    intro n acc x hx
    unfold decimalDigits at hx
    split at hx
    · rcases List.mem_cons.mp hx with h | h
      · left; omega
      · exact Or.inr h
    · rcases ih _ _ x hx with h | h
      · exact Or.inl h
      · rcases List.mem_cons.mp h with h | h
        · left; omega
        · exact Or.inr h

/-- Two integers with one decimal string are equal. -/
theorem numberToString_injective (a b : Int) (h : numberToString a = numberToString b) :
    a = b := by
  have key : ∀ n : Nat, (45 : Nat) ∉ decimalDigits (n + 1) n [] := by
    intro n hmem
    rcases decimalDigits_ge _ _ _ _ hmem with h | h
    · omega
    · simp at h
  unfold numberToString at h
  by_cases ha : a < 0 <;> by_cases hb : b < 0
  · rw [if_pos ha, if_pos hb] at h
    have h2 := congrArg digitsValue (List.cons.inj h).2
    rw [digitsValue_decimalDigits, digitsValue_decimalDigits] at h2
    omega
  · rw [if_pos ha, if_neg hb] at h
    exact absurd (h ▸ List.mem_cons_self _ _) (key _)
  · rw [if_neg ha, if_pos hb] at h
    exact absurd (h ▸ List.mem_cons_self _ _) (key _)
  · rw [if_neg ha, if_neg hb] at h
    have h2 := congrArg digitsValue h
    rw [digitsValue_decimalDigits, digitsValue_decimalDigits] at h2
    omega

/-! ## Create, update, delete -/

/-- C1 as amended: `createTask` puts one new task in front of the unchanged
collection; its title and description are the trimmed inputs, its dueDate and
priority the inputs as given, it is not completed, and its id is the decimal
string of the clock reading, different from the id of every task of the
collection whose id is the decimal string of another clock reading. -/
theorem createTask_front (s : State) (now : Int) (iso : JSString) (taskData : TaskData) :
    ∃ t : Task,
      (createTask s now iso taskData).tasks = t :: s.tasks ∧
      (createTask s now iso taskData).tasks.length = s.tasks.length + 1 ∧
      t.title = trim taskData.title ∧ t.description = trim taskData.description ∧
      t.dueDate = taskData.dueDate ∧ t.priority = taskData.priority ∧
      t.completed = false ∧ t.createdAt = iso ∧ t.updatedAt = none ∧
      t.id = numberToString now ∧
      ∀ u ∈ s.tasks, ∀ k : Int, k ≠ now → u.id = numberToString k → t.id ≠ u.id := by
  refine ⟨_, rfl, ?_, rfl, rfl, rfl, rfl, rfl, rfl, rfl, rfl, ?_⟩
  · simp [createTask, resetForm, saveTasks]
  · intro u _ k hk hu heq
    rw [hu] at heq
    exact hk (numberToString_injective _ _ heq).symm

/-- C1 refuted: a task created at clock reading 5 in a collection that
holds a task with id "5" gets the id "5" again. -/
theorem createTask_id_collision :
    (exampleStore [exampleTask "5" .null "high"] "date-asc").tasks.map (fun t => t.id) =
      [utf16 "5"] ∧
    (createTask (exampleStore [exampleTask "5" .null "high"] "date-asc") 5
      (utf16 "1970-01-01T00:00:00.005Z") exampleData).tasks.map (fun t => t.id) =
      [utf16 "5", utf16 "5"] := by
  decide

theorem firstIndex_cases (tasks : List Task) (id : JSString) :
    (tasks.findIdx? (fun t => t.id == id) = none ∧ ∀ t ∈ tasks, t.id ≠ id) ∨
    ∃ i old, tasks.findIdx? (fun t => t.id == id) = some i ∧ tasks[i]? = some old ∧
      old.id = id ∧ ∀ j t, j < i → tasks[j]? = some t → t.id ≠ id := by
  cases h : tasks.findIdx? (fun t => t.id == id) with
  | none =>
    left
    refine ⟨rfl, ?_⟩
    intro t ht
    have := (List.findIdx?_eq_none_iff.mp h) t ht
    simpa using this
  | some i =>
    right
    obtain ⟨hi, hp, hlt⟩ := List.findIdx?_eq_some_iff_getElem.mp h
    refine ⟨i, tasks[i], rfl, by simp [hi], by simpa using hp, ?_⟩
    intro j t hj hjt
    have hj2 : j < tasks.length := Nat.lt_trans hj hi
    have := hlt j hj
    rw [List.getElem?_eq_getElem hj2] at hjt
    cases hjt
    simpa using this

/-- C8: `updateTask` leaves the store as it is when no task has the id;
otherwise it replaces the first task with the id, at its place, by a task
with the same id, completed and createdAt and with the new title and
description (trimmed), dueDate, priority and updatedAt; every other place and
the length are unchanged. -/
theorem updateTask_frame (s : State) (iso id : JSString) (taskData : TaskData) :
    ((∀ t ∈ s.tasks, t.id ≠ id) → updateTask s iso id taskData = s) ∧
    ((∃ t ∈ s.tasks, t.id = id) →
      ∃ i old, s.tasks[i]? = some old ∧ old.id = id ∧
        (∀ j t, j < i → s.tasks[j]? = some t → t.id ≠ id) ∧
        (updateTask s iso id taskData).tasks = s.tasks.set i (updatedTask old iso taskData) ∧
        (updateTask s iso id taskData).tasks[i]? = some (updatedTask old iso taskData) ∧
        (∀ j, j ≠ i → (updateTask s iso id taskData).tasks[j]? = s.tasks[j]?) ∧
        (updatedTask old iso taskData).id = old.id ∧
        (updatedTask old iso taskData).completed = old.completed ∧
        (updatedTask old iso taskData).createdAt = old.createdAt ∧
        (updatedTask old iso taskData).title = trim taskData.title ∧
        (updatedTask old iso taskData).description = trim taskData.description ∧
        (updatedTask old iso taskData).dueDate = taskData.dueDate ∧
        (updatedTask old iso taskData).priority = taskData.priority ∧
        (updatedTask old iso taskData).updatedAt = some iso) ∧
    (updateTask s iso id taskData).tasks.length = s.tasks.length := by
  rcases firstIndex_cases s.tasks id with ⟨hnone, hall⟩ | ⟨i, old, hsome, hget, hid, hfirst⟩
  · refine ⟨fun _ => ?_, ?_, ?_⟩
    · simp only [updateTask, hnone]
    · rintro ⟨t, ht, hteq⟩
      exact absurd hteq (hall t ht)
    · simp only [updateTask, hnone]
  · have htasks : (updateTask s iso id taskData).tasks =
        s.tasks.set i (updatedTask old iso taskData) := by
      simp only [updateTask, hsome, hget, resetForm, saveTasks]
    have hi : i < s.tasks.length := by
      rcases Nat.lt_or_ge i s.tasks.length with h | h
      · exact h
      · rw [List.getElem?_eq_none h] at hget
        cases hget
    refine ⟨fun hno => ?_, fun _ => ?_, ?_⟩
    · exact absurd hid (hno old (List.getElem?_mem hget))
    · refine ⟨i, old, hget, hid, hfirst, htasks, ?_, ?_, rfl, rfl, rfl, rfl, rfl, rfl, rfl, rfl⟩
      · rw [htasks, List.getElem?_set_self hi]
      · intro j hj
        rw [htasks, List.getElem?_set_ne (Ne.symm hj)]
    · rw [htasks, List.length_set]

theorem length_filter_id (tasks : List Task) (id : JSString)
    (hnd : (tasks.map (fun t => t.id)).Nodup) (hmem : ∃ t ∈ tasks, t.id = id) :
    (tasks.filter (fun t => t.id != id)).length + 1 = tasks.length := by
  induction tasks with
  | nil => simp at hmem
  | cons a l ih =>
    simp only [List.map_cons, List.nodup_cons] at hnd
    by_cases ha : a.id = id
    · have hall : ∀ t ∈ l, (t.id != id) = true := by
        intro t ht
        simp only [bne_iff_ne, ne_eq]
        intro hte
        exact hnd.1 (List.mem_map.mpr ⟨t, ht, by rw [hte, ha]⟩)
      have : l.filter (fun t => t.id != id) = l := List.filter_eq_self.mpr hall
      simp [List.filter_cons, ha, this]
    · have hmem2 : ∃ t ∈ l, t.id = id := by
        obtain ⟨t, ht, hte⟩ := hmem
        rcases List.mem_cons.mp ht with h | h
        · exact absurd (h ▸ hte) ha
        · exact ⟨t, h, hte⟩
      have := ih hnd.2 hmem2
      simp [List.filter_cons, ha]
      omega

theorem length_filter_add_countP (tasks : List Task) (id : JSString) :
    (tasks.filter (fun t => t.id != id)).length + tasks.countP (fun t => t.id == id) =
      tasks.length := by
  induction tasks with
  | nil => rfl
  | cons a l ih =>
    by_cases ha : a.id = id
    · simp only [List.filter_cons, List.countP_cons, List.length_cons, ha, bne_self_eq_false,
        beq_self_eq_true, if_true, Bool.false_eq_true, if_false]
      omega
    · have h1 : (a.id != id) = true := by simpa using ha
      have h2 : (a.id == id) = false := by simpa using ha
      simp only [List.filter_cons, List.countP_cons, List.length_cons, h1, h2, if_true,
        Bool.false_eq_true, if_false]
      omega

theorem length_filter_completed (c : List Task) :
    (c.filter (fun t => t.completed)).length + (c.filter (fun t => !t.completed)).length =
      c.length := by
  induction c with
  | nil => rfl
  | cons a l ih =>
    cases ha : a.completed
    · simp only [List.filter_cons, ha, Bool.false_eq_true, if_false, Bool.not_false, if_true,
        List.length_cons]
      omega
    · simp only [List.filter_cons, ha, if_true, Bool.not_true, Bool.false_eq_true, if_false,
        List.length_cons]
      omega

/-- C9 as amended: a confirmed `deleteTask` removes every task with the id and
keeps the others in their order; when the ids of the collection are pairwise
distinct and a task has the id, exactly one entry goes; when no task has the
id the collection is unchanged; without confirmation nothing changes. -/
theorem deleteTask_removes (s : State) (id : JSString) :
    (deleteTask s true id).tasks = s.tasks.filter (fun t => t.id != id) ∧
    (∀ t ∈ (deleteTask s true id).tasks, t.id ≠ id) ∧
    (∀ t ∈ s.tasks, t.id ≠ id → t ∈ (deleteTask s true id).tasks) ∧
    (deleteTask s true id).tasks.Sublist s.tasks ∧
    (deleteTask s true id).tasks.length + s.tasks.countP (fun t => t.id == id) =
      s.tasks.length ∧
    ((s.tasks.map (fun t => t.id)).Nodup → (∃ t ∈ s.tasks, t.id = id) →
      (deleteTask s true id).tasks.length + 1 = s.tasks.length) ∧
    ((∀ t ∈ s.tasks, t.id ≠ id) → (deleteTask s true id).tasks = s.tasks) ∧
    deleteTask s false id = s := by
  have h : (deleteTask s true id).tasks = s.tasks.filter (fun t => t.id != id) := by
    simp [deleteTask, saveTasks]
  refine ⟨h, ?_, ?_, ?_, ?_, ?_, ?_, ?_⟩
  · intro t ht
    rw [h] at ht
    simpa using (List.mem_filter.mp ht).2
  · intro t ht hne
    rw [h]
    exact List.mem_filter.mpr ⟨ht, by simpa using hne⟩
  · rw [h]
    exact List.filter_sublist _
  · rw [h]
    exact length_filter_add_countP s.tasks id
  · intro hnd hmem
    rw [h]
    exact length_filter_id s.tasks id hnd hmem
  · intro hall
    rw [h]
    exact List.filter_eq_self.mpr (fun t ht => by simpa using hall t ht)
  · simp [deleteTask]

/-- C10: the views `completed` and `pending` of a collection are disjoint,
every task of the collection lies in exactly one of them, they hold no other
task, each keeps the order of the collection, their lengths add up to its
length, and every other filter returns the collection itself. -/
theorem filterTasks_partition (s : State) (c : List Task) :
    (∀ t, t ∈ filterTasks { s with currentFilter := "completed" } c →
      t ∉ filterTasks { s with currentFilter := "pending" } c) ∧
    (∀ t, t ∈ c →
      (t ∈ filterTasks { s with currentFilter := "completed" } c ∧
        t ∉ filterTasks { s with currentFilter := "pending" } c) ∨
      (t ∈ filterTasks { s with currentFilter := "pending" } c ∧
        t ∉ filterTasks { s with currentFilter := "completed" } c)) ∧
    (∀ t, (t ∈ filterTasks { s with currentFilter := "completed" } c ∨
        t ∈ filterTasks { s with currentFilter := "pending" } c) ↔ t ∈ c) ∧
    (filterTasks { s with currentFilter := "completed" } c).Sublist c ∧
    (filterTasks { s with currentFilter := "pending" } c).Sublist c ∧
    (filterTasks { s with currentFilter := "completed" } c).length +
      (filterTasks { s with currentFilter := "pending" } c).length = c.length ∧
    filterTasks { s with currentFilter := "all" } c = c ∧
    (s.currentFilter ≠ "completed" → s.currentFilter ≠ "pending" → filterTasks s c = c) := by
  have hc : filterTasks { s with currentFilter := "completed" } c =
      c.filter (fun t => t.completed) := by simp [filterTasks]
  have hp : filterTasks { s with currentFilter := "pending" } c =
      c.filter (fun t => !t.completed) := by simp [filterTasks]
  rw [hc, hp]
  refine ⟨?_, ?_, ?_, List.filter_sublist _, List.filter_sublist _, ?_, ?_, ?_⟩
  · intro t h1 h2
    have a := (List.mem_filter.mp h1).2
    have b := (List.mem_filter.mp h2).2
    simp [a] at b
  · intro t ht
    cases hcomp : t.completed
    · right; simp [List.mem_filter, ht, hcomp]
    · left; simp [List.mem_filter, ht, hcomp]
  · intro t
    simp only [List.mem_filter]
    constructor
    · rintro (h | h) <;> exact h.1
    · intro ht
      cases hcomp : t.completed
      · right; simp [ht]
      · left; simp [ht]
  · exact length_filter_completed c
  · simp [filterTasks]
  · intro h1 h2
    simp [filterTasks, h1, h2]

/-- C9 refuted: in a collection of two tasks with the id "5", a task with
that id is present, and the confirmed deletion of "5" leaves no task, where
the length less one is one. -/
theorem deleteTask_removes_two :
    exampleTask "5" .null "high" ∈
      (exampleStore [exampleTask "5" .null "high", exampleTask "5" .null "low"]
        "date-asc").tasks ∧
    (deleteTask (exampleStore [exampleTask "5" .null "high", exampleTask "5" .null "low"]
      "date-asc") true (utf16 "5")).tasks.length = 0 ∧
    (exampleStore [exampleTask "5" .null "high", exampleTask "5" .null "low"]
      "date-asc").tasks.length - 1 = 1 := by
  decide

/-! ## The insertion sort -/

theorem insertRev_eq (mv : Task → Bool) (x : Task) (l : List Task) :
    insertRev mv x l = l.takeWhile mv ++ x :: l.dropWhile mv := by
  induction l with
  | nil => rfl
  | cons e es ih =>
    unfold insertRev
    by_cases h : mv e = true
    · simp [h, ih, List.takeWhile_cons, List.dropWhile_cons]
    · simp [h, List.takeWhile_cons, List.dropWhile_cons]

theorem insertSorted_eq (E : Engine) (comparefn : Task → Task → Option Int) (item : Task)
    (sortedPart : List Task) :
    insertSorted E comparefn item sortedPart =
      (insertRev (movesBefore E comparefn item) item sortedPart.reverse).reverse := by
  rw [insertRev_eq]
  simp [insertSorted, List.reverse_append]

theorem foldl_insertSorted (E : Engine) (comparefn : Task → Task → Option Int)
    (xs : List Task) :
    ∀ acc : List Task,
      xs.foldl (fun sortedPart item => insertSorted E comparefn item sortedPart) acc =
        (xs.foldl (fun r item => insertRev (movesBefore E comparefn item) item r)
          acc.reverse).reverse := by
  induction xs with
  | nil => intro acc; simp
  | cons x xs ih =>
    intro acc
    simp only [List.foldl_cons]
    rw [ih, insertSorted_eq, List.reverse_reverse]

theorem arraySort_eq (E : Engine) (comparefn : Task → Task → Option Int) (xs : List Task) :
    arraySort E comparefn xs = (sortedRev E comparefn xs).reverse := by
  unfold arraySort sortedRev
  rw [foldl_insertSorted]
  rfl

theorem sortedRev_concat (E : Engine) (comparefn : Task → Task → Option Int) (xs : List Task)
    (x : Task) :
    sortedRev E comparefn (xs ++ [x]) =
      insertRev (movesBefore E comparefn x) x (sortedRev E comparefn xs) := by
  simp [sortedRev, List.foldl_append]

theorem insertRev_perm (mv : Task → Bool) (x : Task) (l : List Task) :
    (insertRev mv x l).Perm (x :: l) := by
  induction l with
  | nil => exact List.Perm.refl _
  | cons e es ih =>
    unfold insertRev
    split
    · exact (List.Perm.cons e ih).trans (List.Perm.swap x e es)
    · exact List.Perm.refl _

theorem sortedRev_perm (E : Engine) (comparefn : Task → Task → Option Int) (xs : List Task) :
    (sortedRev E comparefn xs).Perm xs.reverse := by
  induction xs using List.reverseRecOn with
  | nil => exact List.Perm.refl _
  | append_singleton xs x ih =>
    rw [sortedRev_concat, List.reverse_append]
    exact (insertRev_perm _ _ _).trans (List.Perm.cons x ih)

theorem arraySort_perm (E : Engine) (comparefn : Task → Task → Option Int) (xs : List Task) :
    (arraySort E comparefn xs).Perm xs := by
  rw [arraySort_eq]
  exact (List.reverse_perm _).trans ((sortedRev_perm E comparefn xs).trans (List.reverse_perm _))

theorem insertRev_pairwise (R : Task → Task → Prop) (mv : Task → Bool) (x : Task) :
    ∀ l : List Task, l.Pairwise R →
      (∀ e ∈ l, mv e = true → R e x) →
      (∀ e ∈ l, mv e = false → R x e ∧ ∀ f ∈ l, R e f → R x f) →
      (insertRev mv x l).Pairwise R := by
  intro l
  induction l with
  | nil => intro _ _ _; simp [insertRev]
  | cons e es ih =>
    intro hp h1 h2
    unfold insertRev
    have hp2 := List.pairwise_cons.mp hp
    by_cases h : mv e = true
    · rw [if_pos h]
      refine List.pairwise_cons.mpr ⟨?_, ?_⟩
      · intro y hy
        rcases List.mem_cons.mp ((insertRev_perm mv x es).mem_iff.mp hy) with hy | hy
        · rw [hy]; exact h1 e (List.mem_cons_self _ _) h
        · exact hp2.1 y hy
      · refine ih hp2.2 (fun e2 he2 => h1 e2 (List.mem_cons_of_mem _ he2)) ?_
        intro e2 he2 hm
        have := h2 e2 (List.mem_cons_of_mem _ he2) hm
        exact ⟨this.1, fun f hf => this.2 f (List.mem_cons_of_mem _ hf)⟩
    · rw [if_neg h]
      have hf : mv e = false := by simpa using h
      have := h2 e (List.mem_cons_self _ _) hf
      refine List.pairwise_cons.mpr ⟨?_, hp⟩
      intro y hy
      rcases List.mem_cons.mp hy with hy | hy
      · rw [hy]; exact this.1
      · exact this.2 y (List.mem_cons_of_mem _ hy) (hp2.1 y hy)

/-- The sorted part, in reverse, is ordered by every relation `R` that the
decisions of the insertion respect and that is transitive, on the tasks that
satisfy `S`. -/
theorem sortedRev_pairwise (E : Engine) (comparefn : Task → Task → Option Int)
    (R : Task → Task → Prop) (S : Task → Prop)
    (h1 : ∀ x e, S x → S e → movesBefore E comparefn x e = true → R e x)
    (h2 : ∀ x e, S x → S e → movesBefore E comparefn x e = false → R x e)
    (htr : ∀ x e f, S x → S e → S f → R x e → R e f → R x f) :
    ∀ xs : List Task, (∀ x ∈ xs, S x) → (sortedRev E comparefn xs).Pairwise R := by
  intro xs
  induction xs using List.reverseRecOn with
  | nil => intro _; simp [sortedRev]
  | append_singleton xs x ih =>
    intro hS
    have hSx : S x := hS x (by simp)
    have hSxs : ∀ y ∈ xs, S y := fun y hy => hS y (by simp [hy])
    have hmem : ∀ e ∈ sortedRev E comparefn xs, S e := fun e he =>
      hSxs e (List.mem_reverse.mp ((sortedRev_perm E comparefn xs).mem_iff.mp he))
    rw [sortedRev_concat]
    refine insertRev_pairwise R _ x _ (ih hSxs) ?_ ?_
    · intro e he hm
      exact h1 x e hSx (hmem e he) hm
    · intro e he hm
      have hxe := h2 x e hSx (hmem e he) hm
      exact ⟨hxe, fun f hf hef => htr x e f hSx (hmem e he) (hmem f hf) hxe hef⟩

/-! ## Sorting by date -/

theorem movesBefore_dateAsc_true (E : Engine) (x e : Task)
    (h : movesBefore E (compareDateAsc E) x e = true) :
    x.dueDate.truthy = false → e.dueDate.truthy = false := by
  intro hx
  unfold movesBefore sortCompare compareDateAsc at h
  cases hE : E.earlierFirst <;> cases he : e.dueDate.truthy <;> simp_all

theorem movesBefore_dateAsc_false (E : Engine) (x e : Task)
    (h : movesBefore E (compareDateAsc E) x e = false) :
    e.dueDate.truthy = false → x.dueDate.truthy = false := by
  intro he
  unfold movesBefore sortCompare compareDateAsc at h
  cases hE : E.earlierFirst <;> cases hx : x.dueDate.truthy <;> simp_all

theorem movesBefore_dateDesc_true (E : Engine) (x e : Task)
    (h : movesBefore E (compareDateDesc E) x e = true) :
    x.dueDate.truthy = false → e.dueDate.truthy = false := by
  intro hx
  unfold movesBefore sortCompare compareDateDesc at h
  cases hE : E.earlierFirst <;> cases he : e.dueDate.truthy <;> simp_all

theorem movesBefore_dateDesc_false (E : Engine) (x e : Task)
    (h : movesBefore E (compareDateDesc E) x e = false) :
    e.dueDate.truthy = false → x.dueDate.truthy = false := by
  intro he
  unfold movesBefore sortCompare compareDateDesc at h
  cases hE : E.earlierFirst <;> cases hx : x.dueDate.truthy <;> simp_all

theorem arraySort_undated_last (E : Engine) (comparefn : Task → Task → Option Int)
    (h1 : ∀ x e, movesBefore E comparefn x e = true →
      x.dueDate.truthy = false → e.dueDate.truthy = false)
    (h2 : ∀ x e, movesBefore E comparefn x e = false →
      e.dueDate.truthy = false → x.dueDate.truthy = false)
    (tasks : List Task) :
    (arraySort E comparefn tasks).Pairwise
      (fun a b => a.dueDate.truthy = false → b.dueDate.truthy = false) := by
  rw [arraySort_eq, List.pairwise_reverse]
  exact sortedRev_pairwise E comparefn
    (fun a b => b.dueDate.truthy = false → a.dueDate.truthy = false) (fun _ => True)
    (fun x e _ _ hm => h1 x e hm) (fun x e _ _ hm => h2 x e hm)
    (fun x e f _ _ _ hxe hef hf => hxe (hef hf)) tasks (fun _ _ => trivial)

/-- C2: under `date-asc` and under `date-desc`, `sortTasks` returns a
permutation of the collection in which no task without dueDate (`undefined`,
`null` or the empty string) stands before a task with one; for the input
`[{dueDate: null}, {dueDate: "2025-01-01"}]` both modes return the dated task
first and the other last. -/
theorem sortTasks_undated_last (E : Engine) (s : State) (tasks : List Task) :
    (sortTasks E { s with currentSort := "date-asc" } tasks).Pairwise
      (fun a b => a.dueDate.truthy = false → b.dueDate.truthy = false) ∧
    (sortTasks E { s with currentSort := "date-desc" } tasks).Pairwise
      (fun a b => a.dueDate.truthy = false → b.dueDate.truthy = false) ∧
    (sortTasks E { s with currentSort := "date-asc" } tasks).Perm tasks ∧
    (sortTasks E { s with currentSort := "date-desc" } tasks).Perm tasks ∧
    (∀ n d : Task, n.dueDate = DueDate.null → d.dueDate = DueDate.str (utf16 "2025-01-01") →
      sortTasks E { s with currentSort := "date-asc" } [n, d] = [d, n] ∧
      sortTasks E { s with currentSort := "date-desc" } [n, d] = [d, n]) ∧
    (∀ d : DueDate, d.truthy = false ↔
      d = DueDate.undefined ∨ d = DueDate.null ∨ d = DueDate.str []) := by
  have ha : ∀ l, sortTasks E { s with currentSort := "date-asc" } l =
      arraySort E (compareDateAsc E) l := fun l => by simp [sortTasks]
  have hd : ∀ l, sortTasks E { s with currentSort := "date-desc" } l =
      arraySort E (compareDateDesc E) l := fun l => by
    simp [sortTasks]
  refine ⟨?_, ?_, ?_, ?_, ?_, ?_⟩
  rotate_left 5
  · intro d
    cases d with
    | undefined => simp [DueDate.truthy]
    | null => simp [DueDate.truthy]
    | str x => cases x <;> simp [DueDate.truthy]
  · rw [ha]
    exact arraySort_undated_last E _ (movesBefore_dateAsc_true E) (movesBefore_dateAsc_false E) _
  · rw [hd]
    exact arraySort_undated_last E _ (movesBefore_dateDesc_true E) (movesBefore_dateDesc_false E) _
  · rw [ha]; exact arraySort_perm _ _ _
  · rw [hd]; exact arraySort_perm _ _ _
  · intro n d hn hdt
    have hdtr : d.dueDate.truthy = true := by rw [hdt]; decide
    have hntr : n.dueDate.truthy = false := by rw [hn]; rfl
    rw [ha, hd]
    constructor
    · cases hE : E.earlierFirst <;>
        simp [arraySort, insertSorted, movesBefore, sortCompare, compareDateAsc, hE, hdtr, hntr]
    · cases hE : E.earlierFirst <;>
        simp [arraySort, insertSorted, movesBefore, sortCompare, compareDateDesc, hE, hdtr, hntr]

/-! ## Sorting by priority -/

theorem priorityOrder_valid (p : JSString) (h : ValidPriority p) :
    priorityOrder p = some (rank p) := by
  rcases h with h | h | h <;> subst h <;> decide

theorem sortCompare_high (x e : Task) (hx : ValidPriority x.priority)
    (he : ValidPriority e.priority) :
    sortCompare comparePriorityHigh x e = rank e.priority - rank x.priority := by
  simp [sortCompare, comparePriorityHigh, priorityOrder_valid _ hx, priorityOrder_valid _ he,
    jsSub]

theorem sortCompare_low (x e : Task) (hx : ValidPriority x.priority)
    (he : ValidPriority e.priority) :
    sortCompare comparePriorityLow x e = rank x.priority - rank e.priority := by
  simp [sortCompare, comparePriorityLow, priorityOrder_valid _ hx, priorityOrder_valid _ he,
    jsSub]

theorem movesBefore_high (E : Engine) (x e : Task) (hx : ValidPriority x.priority)
    (he : ValidPriority e.priority) :
    movesBefore E comparePriorityHigh x e = decide (rank e.priority < rank x.priority) := by
  unfold movesBefore
  rw [sortCompare_high e x he hx, sortCompare_high x e hx he]
  cases E.earlierFirst <;> simp

theorem movesBefore_low (E : Engine) (x e : Task) (hx : ValidPriority x.priority)
    (he : ValidPriority e.priority) :
    movesBefore E comparePriorityLow x e = decide (rank x.priority < rank e.priority) := by
  unfold movesBefore
  rw [sortCompare_low e x he hx, sortCompare_low x e hx he]
  cases E.earlierFirst <;> simp

/-- C4: on a collection whose priorities are all `low`, `medium` or `high`,
`sortTasks` returns a permutation of the collection whose ranks (high 3,
medium 2, low 1, the values of the table `priorityOrder`) never increase
along the result under `priority-high` and never decrease under
`priority-low`. -/
theorem sortTasks_priority_sorted (E : Engine) (s : State) (tasks : List Task)
    (hvalid : ∀ t ∈ tasks, ValidPriority t.priority) :
    (sortTasks E { s with currentSort := "priority-high" } tasks).Perm tasks ∧
    (sortTasks E { s with currentSort := "priority-high" } tasks).Pairwise
      (fun a b => rank b.priority ≤ rank a.priority) ∧
    (sortTasks E { s with currentSort := "priority-low" } tasks).Perm tasks ∧
    (sortTasks E { s with currentSort := "priority-low" } tasks).Pairwise
      (fun a b => rank a.priority ≤ rank b.priority) ∧
    (∀ t ∈ tasks, priorityOrder t.priority = some (rank t.priority)) ∧
    rank (utf16 "high") = 3 ∧ rank (utf16 "medium") = 2 ∧ rank (utf16 "low") = 1 := by
  have hh : sortTasks E { s with currentSort := "priority-high" } tasks =
      arraySort E comparePriorityHigh tasks := by simp [sortTasks]
  have hl : sortTasks E { s with currentSort := "priority-low" } tasks =
      arraySort E comparePriorityLow tasks := by simp [sortTasks]
  rw [hh, hl]
  refine ⟨arraySort_perm _ _ _, ?_, arraySort_perm _ _ _, ?_,
    fun t ht => priorityOrder_valid _ (hvalid t ht), by decide, by decide, by decide⟩
  · rw [arraySort_eq, List.pairwise_reverse]
    refine sortedRev_pairwise E comparePriorityHigh
      (fun a b => rank a.priority ≤ rank b.priority) (fun t => ValidPriority t.priority)
      ?_ ?_ (fun x e f _ _ _ hxe hef => le_trans hxe hef) tasks hvalid
    · intro x e hx he hm
      rw [movesBefore_high E x e hx he] at hm
      exact le_of_lt (of_decide_eq_true hm)
    · intro x e hx he hm
      rw [movesBefore_high E x e hx he] at hm
      exact not_lt.mp (of_decide_eq_false hm)
  · rw [arraySort_eq, List.pairwise_reverse]
    refine sortedRev_pairwise E comparePriorityLow
      (fun a b => rank b.priority ≤ rank a.priority) (fun t => ValidPriority t.priority)
      ?_ ?_ (fun x e f _ _ _ hxe hef => le_trans hef hxe) tasks hvalid
    · intro x e hx he hm
      rw [movesBefore_low E x e hx he] at hm
      exact le_of_lt (of_decide_eq_true hm)
    · intro x e hx he hm
      rw [movesBefore_low E x e hx he] at hm
      exact not_lt.mp (of_decide_eq_false hm)

/-- C4 at a concrete collection: priorities medium, high, low, high. -/
theorem sortTasks_priority_sorted_witness :
    (∀ t ∈ examplePriorities, ValidPriority t.priority) ∧
    (sortTasks exampleEngine (exampleStore [] "priority-high") examplePriorities).Pairwise
      (fun a b => rank b.priority ≤ rank a.priority) ∧
    (sortTasks exampleEngine (exampleStore [] "priority-high") examplePriorities).map
      (fun t => t.id) = [utf16 "2", utf16 "4", utf16 "1", utf16 "3"] :=
  ⟨by decide,
    (sortTasks_priority_sorted exampleEngine (exampleStore [] "priority-high") examplePriorities
      (by decide)).2.1,
    by decide⟩

/-- C3 at a failing input: two tasks with the same sort key, both without
dueDate (the empty string that the form gives). The comparators of `date-asc`
and `date-desc` answer 1 for the pair in either order, and the sort that puts
the earlier element first to the comparator returns the two tasks swapped. -/
theorem sortTasks_undated_pair_swapped :
    compareDateAsc exampleEngine (exampleTask "1" (.str []) "high")
      (exampleTask "2" (.str []) "high") = some 1 ∧
    compareDateAsc exampleEngine (exampleTask "2" (.str []) "high")
      (exampleTask "1" (.str []) "high") = some 1 ∧
    (sortTasks exampleEngine (exampleStore [] "date-asc")
      [exampleTask "1" (.str []) "high", exampleTask "2" (.str []) "high"]).map
        (fun t => t.id) = [utf16 "2", utf16 "1"] ∧
    (sortTasks exampleEngine (exampleStore [] "date-desc")
      [exampleTask "1" (.str []) "high", exampleTask "2" (.str []) "high"]).map
        (fun t => t.id) = [utf16 "2", utf16 "1"] := by
  decide

/-- C5 at a failing input: a task with the priority `urgent` in front of a
task with the priority `high` stays in front of it under `priority-high`, and
behind a task with priority `low` it stays behind under `priority-low`,
whichever way the pair is put to the comparator: the comparator answers `NaN`. -/
theorem sortTasks_unknown_priority_stays :
    comparePriorityHigh (exampleTask "1" .null "urgent") (exampleTask "2" .null "high") = none ∧
    comparePriorityHigh (exampleTask "2" .null "high") (exampleTask "1" .null "urgent") = none ∧
    (sortTasks exampleEngine (exampleStore [] "priority-high")
      [exampleTask "1" .null "urgent", exampleTask "2" .null "high"]).map (fun t => t.id) =
      [utf16 "1", utf16 "2"] ∧
    (sortTasks { exampleEngine with earlierFirst := false } (exampleStore [] "priority-high")
      [exampleTask "1" .null "urgent", exampleTask "2" .null "high"]).map (fun t => t.id) =
      [utf16 "1", utf16 "2"] ∧
    (sortTasks exampleEngine (exampleStore [] "priority-low")
      [exampleTask "3" .null "low", exampleTask "1" .null "urgent"]).map (fun t => t.id) =
      [utf16 "3", utf16 "1"] ∧
    (sortTasks { exampleEngine with earlierFirst := false } (exampleStore [] "priority-low")
      [exampleTask "3" .null "low", exampleTask "1" .null "urgent"]).map (fun t => t.id) =
      [utf16 "3", utf16 "1"] := by
  decide

/-! ## `JSON.parse` after `JSON.stringify` -/

theorem parseStringBody_quote (rest : JSString) : parseStringBody (34 :: rest) = some ([], rest) := by
  rw [parseStringBody.eq_def]; simp

theorem parseStringBody_plain (c : Nat) (rest : JSString) (h1 : c ≠ 34) (h2 : c ≠ 92)
    (h3 : 32 ≤ c) :
    parseStringBody (c :: rest) = (parseStringBody rest).map fun p => (c :: p.1, p.2) := by
  rw [parseStringBody.eq_def]
  simp only [h1, h2, if_false]
  rw [if_neg (by omega)]

theorem parseStringBody_escape (e u : Nat) (rest : JSString) (h : e ≠ 117)
    (hu : unescape e = some u) :
    parseStringBody (92 :: e :: rest) = (parseStringBody rest).map fun p => (u :: p.1, p.2) := by
  rw [parseStringBody.eq_def]
  simp [h, hu]

theorem parseStringBody_hex (h1 h2 h3 h4 x y z w : Nat) (rest : JSString)
    (e1 : hexValue h1 = some x) (e2 : hexValue h2 = some y) (e3 : hexValue h3 = some z)
    (e4 : hexValue h4 = some w) :
    parseStringBody (92 :: 117 :: h1 :: h2 :: h3 :: h4 :: rest) =
      (parseStringBody rest).map fun p => ((((x * 16 + y) * 16 + z) * 16 + w) :: p.1, p.2) := by
  rw [parseStringBody.eq_def]
  simp [e1, e2, e3, e4]

theorem hexValue_hexDigit : ∀ d : Nat, d < 16 → hexValue (hexDigit d) = some d := by
  decide

theorem parseStringBody_unicodeEscape (c : Nat) (hc : c < 65536) (tail : JSString) :
    parseStringBody (unicodeEscape c ++ tail) =
      (parseStringBody tail).map fun p => (c :: p.1, p.2) := by
  have h1 := hexValue_hexDigit (c / 4096 % 16) (Nat.mod_lt _ (by decide))
  have h2 := hexValue_hexDigit (c / 256 % 16) (Nat.mod_lt _ (by decide))
  have h3 := hexValue_hexDigit (c / 16 % 16) (Nat.mod_lt _ (by decide))
  have h4 := hexValue_hexDigit (c % 16) (Nat.mod_lt _ (by decide))
  have hval : ((c / 4096 % 16 * 16 + c / 256 % 16) * 16 + c / 16 % 16) * 16 + c % 16 = c := by
    omega
  simp only [unicodeEscape, List.cons_append, List.nil_append]
  rw [parseStringBody_hex _ _ _ _ _ _ _ _ _ h1 h2 h3 h4, hval]

theorem parseStringBody_quoteUnit (c : Nat) (tail : JSString) :
    parseStringBody (quoteUnit c ++ tail) =
      (parseStringBody tail).map fun p => (c :: p.1, p.2) := by
  unfold quoteUnit
  split
  · subst_vars; exact parseStringBody_escape 98 8 tail (by decide) (by decide)
  split
  · subst_vars; exact parseStringBody_escape 116 9 tail (by decide) (by decide)
  split
  · subst_vars; exact parseStringBody_escape 110 10 tail (by decide) (by decide)
  split
  · subst_vars; exact parseStringBody_escape 102 12 tail (by decide) (by decide)
  split
  · subst_vars; exact parseStringBody_escape 114 13 tail (by decide) (by decide)
  split
  · subst_vars; exact parseStringBody_escape 34 34 tail (by decide) (by decide)
  split
  · subst_vars; exact parseStringBody_escape 92 92 tail (by decide) (by decide)
  split
  · rename_i h
    apply parseStringBody_unicodeEscape
    simp only [isHighSurrogate, isLowSurrogate, Bool.or_eq_true, decide_eq_true_eq,
      Bool.and_eq_true] at h
    omega
  · rename_i h1 h2 h
    simp only [isHighSurrogate, isLowSurrogate, Bool.or_eq_true, decide_eq_true_eq,
      Bool.and_eq_true, not_or, not_lt] at h
    exact parseStringBody_plain c tail h1 h2 (by omega)

theorem parseStringBody_quoteBody (s : JSString) :
    ∀ rest : JSString, parseStringBody (quoteBody s ++ 34 :: rest) = some (s, rest) := by
  induction s using quoteBody.induct with
  | case1 => intro rest; rw [quoteBody, List.nil_append, parseStringBody_quote]
  | case2 c =>
    intro rest
    rw [quoteBody, parseStringBody_quoteUnit, parseStringBody_quote]
    rfl
  | case3 c d rest2 h ih =>
    intro rest
    rw [quoteBody, if_pos h]
    simp only [isHighSurrogate, isLowSurrogate, Bool.and_eq_true, decide_eq_true_eq] at h
    rw [List.cons_append, List.cons_append,
      parseStringBody_plain c _ (by omega) (by omega) (by omega),
      parseStringBody_plain d _ (by omega) (by omega) (by omega), ih]
    rfl
  | case4 c d rest2 h ih =>
    intro rest
    rw [quoteBody, if_neg h, List.append_assoc, parseStringBody_quoteUnit, ih]
    rfl

theorem skipWS_cons (c : Nat) (rest : JSString) (h1 : c ≠ 9) (h2 : c ≠ 10) (h3 : c ≠ 13)
    (h4 : c ≠ 32) : skipWS (c :: rest) = c :: rest := by
  rw [skipWS]
  simp [h1, h2, h3, h4]

theorem quote_append (s rest : JSString) : quote s ++ rest = 34 :: (quoteBody s ++ 34 :: rest) := by
  simp [quote]

theorem parseValue_string (fuel : Nat) (s rest : JSString) :
    parseValue (fuel + 1) (quote s ++ rest) = some (JSON.string s, rest) := by
  rw [quote_append, parseValue, skipWS_cons _ _ (by decide) (by decide) (by decide) (by decide)]
  simp [parseStringBody_quoteBody]

theorem parseValue_true (fuel : Nat) (rest : JSString) :
    parseValue (fuel + 1) (utf16 "true" ++ rest) = some (JSON.bool true, rest) := by
  have h : utf16 "true" = [116, 114, 117, 101] := by decide
  have h2 : utf16 "rue" = [114, 117, 101] := by decide
  rw [h, parseValue, List.cons_append,
    skipWS_cons _ _ (by decide) (by decide) (by decide) (by decide)]
  simp [h2, stripLiteral]

theorem parseValue_false (fuel : Nat) (rest : JSString) :
    parseValue (fuel + 1) (utf16 "false" ++ rest) = some (JSON.bool false, rest) := by
  have h : utf16 "false" = [102, 97, 108, 115, 101] := by decide
  have h2 : utf16 "alse" = [97, 108, 115, 101] := by decide
  rw [h, parseValue, List.cons_append,
    skipWS_cons _ _ (by decide) (by decide) (by decide) (by decide)]
  simp [h2, stripLiteral]

theorem parseValue_null (fuel : Nat) (rest : JSString) :
    parseValue (fuel + 1) (utf16 "null" ++ rest) = some (JSON.null, rest) := by
  have h : utf16 "null" = [110, 117, 108, 108] := by decide
  have h2 : utf16 "ull" = [117, 108, 108] := by decide
  rw [h, parseValue, List.cons_append,
    skipWS_cons _ _ (by decide) (by decide) (by decide) (by decide)]
  simp [h2, stripLiteral]

theorem parseValue_prim (fuel : Nat) (v : JSON) (hv : IsPrim v) (rest : JSString) :
    parseValue (fuel + 1) (stringify v ++ rest) = some (v, rest) := by
  cases v with
  | null => rw [stringify]; exact parseValue_null fuel rest
  | bool b =>
    cases b
    · rw [stringify]; exact parseValue_false fuel rest
    · rw [stringify]; exact parseValue_true fuel rest
  | string s => rw [stringify]; exact parseValue_string fuel s rest
  | number n => exact absurd hv (by simp [IsPrim])
  | array a => exact absurd hv (by simp [IsPrim])
  | object o => exact absurd hv (by simp [IsPrim])

theorem parseMembers_more (fuel : Nat) (k : JSString) (v : JSON) (hv : IsPrim v)
    (rest : JSString) :
    parseMembers (fuel + 2) (quote k ++ 58 :: (stringify v ++ 44 :: rest)) =
      (parseMembers (fuel + 1) rest).map fun p => (JSONMembers.cons k v p.1, p.2) := by
  rw [quote_append, parseMembers,
    skipWS_cons _ _ (by decide) (by decide) (by decide) (by decide)]
  simp only [if_true, parseStringBody_quoteBody]
  rw [skipWS_cons _ _ (by decide) (by decide) (by decide) (by decide)]
  simp only [if_true, parseValue_prim fuel v hv]
  rw [skipWS_cons _ _ (by decide) (by decide) (by decide) (by decide)]
  simp

theorem parseMembers_last (fuel : Nat) (k : JSString) (v : JSON) (hv : IsPrim v)
    (rest : JSString) :
    parseMembers (fuel + 2) (quote k ++ 58 :: (stringify v ++ 125 :: rest)) =
      some (JSONMembers.cons k v .nil, rest) := by
  rw [quote_append, parseMembers,
    skipWS_cons _ _ (by decide) (by decide) (by decide) (by decide)]
  simp only [if_true, parseStringBody_quoteBody]
  rw [skipWS_cons _ _ (by decide) (by decide) (by decide) (by decide)]
  simp only [if_true, parseValue_prim fuel v hv]
  rw [skipWS_cons _ _ (by decide) (by decide) (by decide) (by decide)]
  simp

theorem parseMembers_membersOfList (l : List (JSString × JSON)) :
    l ≠ [] → (∀ p ∈ l, IsPrim p.2) → ∀ (fuel : Nat) (rest : JSString), l.length + 1 ≤ fuel →
      parseMembers fuel (stringifyMembers (membersOfList l) ++ 125 :: rest) =
        some (membersOfList l, rest) := by
  induction l with
  | nil => intro h; exact absurd rfl h
  | cons p l ih =>
    intro _ hprim fuel rest hfuel
    obtain ⟨f, rfl⟩ : ∃ f, fuel = f + 2 := ⟨fuel - 2, by simp at hfuel; omega⟩
    cases l with
    | nil =>
      simp only [membersOfList, stringifyMembers, List.append_assoc, List.cons_append]
      exact parseMembers_last f p.1 p.2 (hprim p (List.mem_cons_self _ _)) rest
    | cons q l2 =>
      have hrec := ih (List.cons_ne_nil _ _)
        (fun x hx => hprim x (List.mem_cons_of_mem _ hx)) (f + 1) rest
        (by simp at hfuel ⊢; omega)
      simp only [membersOfList, stringifyMembers, List.append_assoc, List.cons_append] at hrec ⊢
      rw [parseMembers_more f p.1 p.2 (hprim p (List.mem_cons_self _ _)), hrec]
      rfl

theorem taskToJSON_eq (t : Task) : taskToJSON t = JSON.object (membersOfList (taskMemberList t)) := by
  cases t with
  | mk id title description dueDate priority completed createdAt updatedAt =>
    cases dueDate <;> cases updatedAt <;> rfl

theorem taskMemberList_prim (t : Task) : ∀ p ∈ taskMemberList t, IsPrim p.2 := by
  cases t with
  | mk id title description dueDate priority completed createdAt updatedAt =>
    cases dueDate <;> cases updatedAt <;> simp [taskMemberList, IsPrim]

theorem taskMemberList_length (t : Task) :
    1 ≤ (taskMemberList t).length ∧ (taskMemberList t).length ≤ 8 := by
  cases t with
  | mk id title description dueDate priority completed createdAt updatedAt =>
    cases dueDate <;> cases updatedAt <;> simp [taskMemberList]

theorem stringifyMembers_head (l : List (JSString × JSON)) (h : l ≠ []) :
    ∃ tl, stringifyMembers (membersOfList l) = 34 :: tl := by
  cases l with
  | nil => exact absurd rfl h
  | cons p l =>
    cases l with
    | nil =>
      exact ⟨_, by simp only [membersOfList, stringifyMembers, quote, List.cons_append]; rfl⟩
    | cons q l =>
      exact ⟨_, by simp only [membersOfList, stringifyMembers, quote, List.cons_append]; rfl⟩

theorem parseValue_task (t : Task) (fuel : Nat) (rest : JSString) (hfuel : 10 ≤ fuel) :
    parseValue fuel (stringify (taskToJSON t) ++ rest) = some (taskToJSON t, rest) := by
  obtain ⟨f, rfl⟩ : ∃ f, fuel = f + 1 := ⟨fuel - 1, by omega⟩
  have hne : taskMemberList t ≠ [] := by
    intro h
    have := (taskMemberList_length t).1
    rw [h] at this
    simp at this
  have hpm := parseMembers_membersOfList (taskMemberList t) hne (taskMemberList_prim t) f rest
    (by have := (taskMemberList_length t).2; omega)
  obtain ⟨tl, htl⟩ := stringifyMembers_head (taskMemberList t) hne
  rw [taskToJSON_eq, stringify, parseValue, List.cons_append,
    skipWS_cons _ _ (by decide) (by decide) (by decide) (by decide)]
  rw [htl] at hpm ⊢
  simp only [List.append_assoc, List.cons_append, List.nil_append] at hpm ⊢
  rw [skipWS_cons _ _ (by decide) (by decide) (by decide) (by decide)]
  simp [hpm]

theorem stringify_task_head (t : Task) : ∃ tl, stringify (taskToJSON t) = 123 :: tl := by
  rw [taskToJSON_eq, stringify]
  exact ⟨_, rfl⟩

theorem parseElems_tasks (ts : List Task) :
    ts ≠ [] → ∀ (fuel : Nat) (rest : JSString), ts.length + 10 ≤ fuel →
      parseElems fuel (stringifyElems (tasksToJSONList ts) ++ 93 :: rest) =
        some (tasksToJSONList ts, rest) := by
  induction ts with
  | nil => intro h; exact absurd rfl h
  | cons t l ih =>
    intro _ fuel rest hfuel
    obtain ⟨f, rfl⟩ : ∃ f, fuel = f + 1 := ⟨fuel - 1, by omega⟩
    simp only [List.length_cons] at hfuel
    cases l with
    | nil =>
      simp only [tasksToJSONList, stringifyElems]
      rw [parseElems, parseValue_task t f _ (by simp at hfuel; omega)]
      simp only []
      rw [skipWS_cons _ _ (by decide) (by decide) (by decide) (by decide)]
      simp
    | cons u l2 =>
      have hrec := ih (List.cons_ne_nil _ _) f rest (by simp at hfuel ⊢; omega)
      simp only [tasksToJSONList, stringifyElems, List.append_assoc, List.cons_append] at hrec ⊢
      rw [parseElems, parseValue_task t f _ (by simp at hfuel; omega)]
      simp only []
      rw [skipWS_cons _ _ (by decide) (by decide) (by decide) (by decide)]
      simp [hrec]

theorem parseValue_tasks (ts : List Task) (fuel : Nat) (rest : JSString)
    (hfuel : ts.length + 11 ≤ fuel) :
    parseValue fuel (stringify (tasksToJSON ts) ++ rest) = some (tasksToJSON ts, rest) := by
  obtain ⟨f, rfl⟩ : ∃ f, fuel = f + 1 := ⟨fuel - 1, by omega⟩
  rw [tasksToJSON, stringify, parseValue, List.cons_append,
    skipWS_cons _ _ (by decide) (by decide) (by decide) (by decide)]
  cases ts with
  | nil =>
    simp only [tasksToJSONList, stringifyElems, List.nil_append, List.cons_append]
    rw [skipWS_cons _ _ (by decide) (by decide) (by decide) (by decide)]
    simp
  | cons t l =>
    have hpe := parseElems_tasks (t :: l) (List.cons_ne_nil _ _) f rest (by omega)
    have hhead : ∃ tl, stringifyElems (tasksToJSONList (t :: l)) = 123 :: tl := by
      obtain ⟨tl, htl⟩ := stringify_task_head t
      cases l with
      | nil => exact ⟨tl, by simp only [tasksToJSONList, stringifyElems, htl]⟩
      | cons u l2 =>
        exact ⟨_, by simp only [tasksToJSONList, stringifyElems, htl, List.cons_append]; rfl⟩
    obtain ⟨tl, htl⟩ := hhead
    rw [htl] at hpe ⊢
    simp only [List.append_assoc, List.cons_append, List.nil_append] at hpe ⊢
    rw [skipWS_cons _ _ (by decide) (by decide) (by decide) (by decide)]
    simp [hpe]

theorem length_stringify_task (t : Task) : 5 ≤ (stringify (taskToJSON t)).length := by
  cases t with
  | mk id title description dueDate priority completed createdAt updatedAt =>
    simp only [taskToJSON, stringify, stringifyMembers, quote, List.length_cons,
      List.length_append]
    omega

theorem length_stringifyElems (ts : List Task) :
    5 * ts.length ≤ (stringifyElems (tasksToJSONList ts)).length := by
  induction ts with
  | nil => simp
  | cons t l ih =>
    have ht := length_stringify_task t
    cases l with
    | nil =>
      simp only [tasksToJSONList, stringifyElems, List.length_cons, List.length_nil]
      omega
    | cons u l2 =>
      simp only [tasksToJSONList, stringifyElems, List.length_cons, List.length_append] at ih ⊢
      omega

/-- Parsing the text that `JSON.stringify` printed for a task collection
returns the value that was printed. -/
theorem jsonParse_stringify_tasks (ts : List Task) :
    jsonParse (stringify (tasksToJSON ts)) = some (tasksToJSON ts) := by
  cases ts with
  | nil => rfl
  | cons t l =>
    have hlen : (t :: l).length + 11 ≤ 2 * (stringify (tasksToJSON (t :: l))).length + 2 := by
      have := length_stringifyElems (t :: l)
      simp only [tasksToJSON, stringify, List.length_cons, List.length_append,
        List.length_nil] at this ⊢
      omega
    have h := parseValue_tasks (t :: l) _ [] hlen
    rw [List.append_nil] at h
    rw [jsonParse, h]
    rfl

theorem lookup_keys : utf16 "id" = [105, 100] ∧ utf16 "title" = [116, 105, 116, 108, 101] ∧
    utf16 "description" = [100, 101, 115, 99, 114, 105, 112, 116, 105, 111, 110] ∧
    utf16 "dueDate" = [100, 117, 101, 68, 97, 116, 101] ∧
    utf16 "priority" = [112, 114, 105, 111, 114, 105, 116, 121] ∧
    utf16 "completed" = [99, 111, 109, 112, 108, 101, 116, 101, 100] ∧
    utf16 "createdAt" = [99, 114, 101, 97, 116, 101, 100, 65, 116] ∧
    utf16 "updatedAt" = [117, 112, 100, 97, 116, 101, 100, 65, 116] := by
  decide

theorem taskOfJSON_taskToJSON (t : Task) : taskOfJSON (taskToJSON t) = some t := by
  obtain ⟨h1, h2, h3, h4, h5, h6, h7, h8⟩ := lookup_keys
  cases t with
  | mk id title description dueDate priority completed createdAt updatedAt =>
    cases dueDate <;> cases updatedAt <;>
      simp [taskToJSON, taskOfJSON, stringField, dueDateField, updatedAtField,
        JSONMembers.lookup, dueDateMember, updatedAtMember, h1, h2, h3, h4, h5, h6, h7, h8]

theorem tasksOfJSON_tasksToJSON (ts : List Task) : tasksOfJSON (tasksToJSON ts) = some ts := by
  rw [tasksToJSON, tasksOfJSON]
  induction ts with
  | nil => rfl
  | cons t l ih => rw [tasksToJSONList, tasksOfJSONList, taskOfJSON_taskToJSON, ih]

/-! ## The fuel of `jsonParse` -/

theorem skipWS_length (s : JSString) : (skipWS s).length ≤ s.length := by
  induction s with
  | nil => simp [skipWS]
  | cons c rest ih =>
    rw [skipWS]
    split
    · simp only [List.length_cons]; omega
    · exact Nat.le_refl _

theorem parseStringBody_length (n : Nat) :
    ∀ (s x r : JSString), s.length ≤ n → parseStringBody s = some (x, r) →
      r.length < s.length := by
  induction n with
  | zero =>
    intro s x r hn h
    cases s with
    | nil => rw [parseStringBody.eq_def] at h; simp at h
    | cons c rest => simp at hn
  | succ n ih =>
    intro s x r hn h
    rw [parseStringBody.eq_def] at h
    split at h
    · simp at h
    · rename_i c rest
      simp only [List.length_cons] at hn ⊢
      split at h
      · simp only [Option.some.injEq, Prod.mk.injEq] at h
        rw [← h.2]; omega
      · split at h
        · split at h
          · simp at h
          · rename_i e rest2
            simp only [List.length_cons] at hn ⊢
            split at h
            · split at h
              · rename_i h1 h2 h3 h4 rest3
                simp only [List.length_cons] at hn ⊢
                split at h
                · simp only [Option.map_eq_some', Prod.mk.injEq, Prod.exists] at h
                  obtain ⟨a, b, hab, _, hb⟩ := h
                  have := ih rest3 a b (by omega) hab
                  rw [← hb]; omega
                · simp at h
              · simp at h
            · split at h
              · simp only [Option.map_eq_some', Prod.mk.injEq, Prod.exists] at h
                obtain ⟨a, b, hab, _, hb⟩ := h
                have := ih rest2 a b (by omega) hab
                rw [← hb]; omega
              · simp at h
        · split at h
          · simp at h
          · simp only [Option.map_eq_some', Prod.mk.injEq, Prod.exists] at h
            obtain ⟨a, b, hab, _, hb⟩ := h
            have := ih rest a b (by omega) hab
            rw [← hb]; omega

theorem stripLiteral_length (lit : JSString) :
    ∀ (s r : JSString), stripLiteral lit s = some r → r.length ≤ s.length := by
  induction lit with
  | nil => intro s r h; simp [stripLiteral] at h; rw [h]
  | cons l lit ih =>
    intro s r h
    cases s with
    | nil => simp [stripLiteral] at h
    | cons c s =>
      rw [stripLiteral] at h
      split at h
      · have := ih s r h
        simp only [List.length_cons]; omega
      · simp at h

theorem dropWhile_length (p : Nat → Bool) (s : JSString) : (s.dropWhile p).length ≤ s.length :=
  (List.dropWhile_sublist p).length_le

theorem parseDigits_length (s x r : JSString) (h : parseDigits s = some (x, r)) :
    r.length ≤ s.length := by
  unfold parseDigits at h
  split at h
  · simp at h
  · simp only [Option.some.injEq, Prod.mk.injEq] at h
    rw [← h.2]; exact dropWhile_length _ _

theorem parseIntPart_length (s x r : JSString) (h : parseIntPart s = some (x, r)) :
    r.length < s.length := by
  cases s with
  | nil => simp [parseIntPart] at h
  | cons c rest =>
    rw [parseIntPart] at h
    split at h
    · simp only [Option.some.injEq, Prod.mk.injEq] at h
      rw [← h.2]; simp
    · split at h
      · simp only [Option.some.injEq, Prod.mk.injEq] at h
        rw [← h.2]
        have := dropWhile_length isDigit rest
        simp only [List.length_cons]; omega
      · simp at h

theorem parseFraction_length (s x r : JSString) (h : parseFraction s = some (x, r)) :
    r.length ≤ s.length := by
  cases s with
  | nil => simp [parseFraction] at h; rw [h.2]
  | cons c rest =>
    rw [parseFraction] at h
    split at h
    · simp only [Option.map_eq_some', Prod.mk.injEq, Prod.exists] at h
      obtain ⟨a, b, hab, _, hb⟩ := h
      have := parseDigits_length _ _ _ hab
      rw [← hb]; simp only [List.length_cons]; omega
    · simp only [Option.some.injEq, Prod.mk.injEq] at h
      rw [← h.2]

theorem parseExponent_length (s x r : JSString) (h : parseExponent s = some (x, r)) :
    r.length ≤ s.length := by
  cases s with
  | nil => simp [parseExponent] at h; rw [h.2]
  | cons c rest =>
    rw [parseExponent.eq_def] at h
    simp only at h
    split at h
    · split at h
      · simp at h
      · rename_i g rest2
        split at h
        · simp only [Option.map_eq_some', Prod.mk.injEq, Prod.exists] at h
          obtain ⟨a, b, hab, _, hb⟩ := h
          have := parseDigits_length _ _ _ hab
          rw [← hb]; simp only [List.length_cons]; omega
        · simp only [Option.map_eq_some', Prod.mk.injEq, Prod.exists] at h
          obtain ⟨a, b, hab, _, hb⟩ := h
          have := parseDigits_length _ _ _ hab
          rw [← hb]; simp only [List.length_cons] at this ⊢; omega
    · simp only [Option.some.injEq, Prod.mk.injEq] at h
      rw [← h.2]

theorem parseNumber_length (s x r : JSString) (h : parseNumber s = some (x, r)) :
    r.length < s.length := by
  unfold parseNumber at h
  split at h
  · simp at h
  · rename_i i s1 hi
    split at h
    · simp at h
    · rename_i f s2 hf
      split at h
      · simp at h
      · rename_i e s3 he
        simp only [Option.some.injEq, Prod.mk.injEq] at h
        have h1 := parseIntPart_length _ _ _ hi
        have h2 := parseFraction_length _ _ _ hf
        have h3 := parseExponent_length _ _ _ he
        have h0 : (parseSign s).2.length ≤ s.length := by
          cases s with
          | nil => simp [parseSign]
          | cons c rest =>
            rw [parseSign]
            split <;> simp
        rw [← h.2]
        omega

theorem parse_fuel (f : Nat) :
    (∀ s v r, parseValue f s = some (v, r) → r.length < s.length ∧
      ∀ f2, 2 * (s.length - r.length) ≤ f2 → parseValue f2 s = some (v, r)) ∧
    (∀ s l r, parseElems f s = some (l, r) → r.length < s.length ∧
      ∀ f2, 2 * (s.length - r.length) + 1 ≤ f2 → parseElems f2 s = some (l, r)) ∧
    (∀ s m r, parseMembers f s = some (m, r) → r.length < s.length ∧
      ∀ f2, 2 * (s.length - r.length) + 1 ≤ f2 → parseMembers f2 s = some (m, r)) := by
  induction f with
  | zero =>
    refine ⟨?_, ?_, ?_⟩ <;> intro s v r h
    · rw [parseValue] at h; simp at h
    · rw [parseElems] at h; simp at h
    · rw [parseMembers] at h; simp at h
  | succ f ih =>
    obtain ⟨ihV, ihE, ihM⟩ := ih
    refine ⟨?_, ?_, ?_⟩
    · intro s v r h
      rw [parseValue] at h
      have hws := skipWS_length s
      cases hs : skipWS s with
      | nil => rw [hs] at h; simp at h
      | cons c rest =>
        rw [hs] at h hws
        simp only [List.length_cons] at hws
        simp only at h
        by_cases h34 : c = 34
        · simp only [h34, if_true, Option.map_eq_some', Prod.mk.injEq, Prod.exists] at h
          obtain ⟨a, b, hab, hv, hb⟩ := h
          have hl := parseStringBody_length _ _ _ _ (le_refl _) hab
          subst hb
          refine ⟨by omega, fun f2 hf2 => ?_⟩
          obtain ⟨f3, rfl⟩ : ∃ f3, f2 = f3 + 1 := ⟨f2 - 1, by omega⟩
          rw [parseValue, hs]
          simp [h34, hab, hv]
        · by_cases h91 : c = 91
          · simp only [h91, if_true] at h
            rw [if_neg (by decide)] at h
            have hws2 := skipWS_length rest
            cases hs2 : skipWS rest with
            | nil => rw [hs2] at h; simp at h
            | cons d rest2 =>
              rw [hs2] at h hws2
              simp only [List.length_cons] at hws2
              simp only at h
              by_cases h93 : d = 93
              · simp only [h93, if_true, Option.some.injEq, Prod.mk.injEq] at h
                obtain ⟨hv, hr⟩ := h
                subst hr
                refine ⟨by omega, fun f2 hf2 => ?_⟩
                obtain ⟨f3, rfl⟩ : ∃ f3, f2 = f3 + 1 := ⟨f2 - 1, by omega⟩
                rw [parseValue, hs]
                simp [h91, hs2, h93, hv]
              · simp only [h93, if_false, Option.map_eq_some', Prod.mk.injEq, Prod.exists] at h
                obtain ⟨a, b, hab, hv, hb⟩ := h
                obtain ⟨hl, hfuel⟩ := ihE _ _ _ hab
                subst hb
                simp only [List.length_cons] at hl hfuel
                refine ⟨by omega, fun f2 hf2 => ?_⟩
                obtain ⟨f3, rfl⟩ : ∃ f3, f2 = f3 + 1 := ⟨f2 - 1, by omega⟩
                rw [parseValue, hs]
                simp only [h91, if_true]
                rw [if_neg (by decide), hs2]
                simp only [h93, if_false]
                rw [hfuel f3 (by omega)]
                simp [hv]
          · by_cases h123 : c = 123
            · simp only [h123, if_true] at h
              rw [if_neg (by decide), if_neg (by decide)] at h
              have hws2 := skipWS_length rest
              cases hs2 : skipWS rest with
              | nil => rw [hs2] at h; simp at h
              | cons d rest2 =>
                rw [hs2] at h hws2
                simp only [List.length_cons] at hws2
                simp only at h
                by_cases h125 : d = 125
                · simp only [h125, if_true, Option.some.injEq, Prod.mk.injEq] at h
                  obtain ⟨hv, hr⟩ := h
                  subst hr
                  refine ⟨by omega, fun f2 hf2 => ?_⟩
                  obtain ⟨f3, rfl⟩ : ∃ f3, f2 = f3 + 1 := ⟨f2 - 1, by omega⟩
                  rw [parseValue, hs]
                  simp [h123, hs2, h125, hv]
                · simp only [h125, if_false, Option.map_eq_some', Prod.mk.injEq,
                    Prod.exists] at h
                  obtain ⟨a, b, hab, hv, hb⟩ := h
                  obtain ⟨hl, hfuel⟩ := ihM _ _ _ hab
                  subst hb
                  simp only [List.length_cons] at hl hfuel
                  refine ⟨by omega, fun f2 hf2 => ?_⟩
                  obtain ⟨f3, rfl⟩ : ∃ f3, f2 = f3 + 1 := ⟨f2 - 1, by omega⟩
                  rw [parseValue, hs]
                  simp only [h123, if_true]
                  rw [if_neg (by decide), if_neg (by decide), hs2]
                  simp only [h125, if_false]
                  rw [hfuel f3 (by omega)]
                  simp [hv]
            · simp only [h34, h91, h123, if_false] at h
              have hfree : ∀ f3, parseValue (f3 + 1) s = parseValue (f + 1) s := by
                intro f3
                rw [parseValue, parseValue, hs]
                simp only [h34, h91, h123, if_false]
              have hlen : r.length < rest.length + 1 := by
                split at h
                · simp only [Option.map_eq_some', Prod.mk.injEq] at h
                  obtain ⟨a, ha, _, hb⟩ := h
                  have := stripLiteral_length _ _ _ ha
                  rw [← hb]; omega
                · split at h
                  · simp only [Option.map_eq_some', Prod.mk.injEq] at h
                    obtain ⟨a, ha, _, hb⟩ := h
                    have := stripLiteral_length _ _ _ ha
                    rw [← hb]; omega
                  · split at h
                    · simp only [Option.map_eq_some', Prod.mk.injEq] at h
                      obtain ⟨a, ha, _, hb⟩ := h
                      have := stripLiteral_length _ _ _ ha
                      rw [← hb]; omega
                    · simp only [Option.map_eq_some', Prod.mk.injEq, Prod.exists] at h
                      obtain ⟨a, b, hab, _, hb⟩ := h
                      have := parseNumber_length _ _ _ hab
                      simp only [List.length_cons] at this
                      rw [← hb]; omega
              have horig : parseValue (f + 1) s = some (v, r) := by
                rw [parseValue, hs]
                simp only [h34, h91, h123, if_false]
                exact h
              refine ⟨by omega, fun f2 hf2 => ?_⟩
              obtain ⟨f3, rfl⟩ : ∃ f3, f2 = f3 + 1 := ⟨f2 - 1, by omega⟩
              rw [hfree, horig]
    · intro s l r h
      rw [parseElems] at h
      split at h
      · simp at h
      · rename_i v r1 hv
        obtain ⟨hl1, hfuel1⟩ := ihV _ _ _ hv
        have hws := skipWS_length r1
        cases hs : skipWS r1 with
        | nil => rw [hs] at h; simp at h
        | cons c r2 =>
          rw [hs] at h hws
          simp only [List.length_cons] at hws
          simp only at h
          by_cases h44 : c = 44
          · simp only [h44, if_true, Option.map_eq_some', Prod.mk.injEq, Prod.exists] at h
            obtain ⟨a, b, hab, hl, hb⟩ := h
            obtain ⟨hl2, hfuel2⟩ := ihE _ _ _ hab
            subst hb
            refine ⟨by omega, fun f2 hf2 => ?_⟩
            obtain ⟨f3, rfl⟩ : ∃ f3, f2 = f3 + 1 := ⟨f2 - 1, by omega⟩
            rw [parseElems, hfuel1 f3 (by omega)]
            simp only [hs, h44, if_true]
            rw [hfuel2 f3 (by omega)]
            simp [hl]
          · by_cases h93 : c = 93
            · simp only [h93, if_true, Option.some.injEq, Prod.mk.injEq] at h
              rw [if_neg (by decide)] at h
              simp only [Option.some.injEq, Prod.mk.injEq] at h
              obtain ⟨hl, hr⟩ := h
              subst hr
              refine ⟨by omega, fun f2 hf2 => ?_⟩
              obtain ⟨f3, rfl⟩ : ∃ f3, f2 = f3 + 1 := ⟨f2 - 1, by omega⟩
              rw [parseElems, hfuel1 f3 (by omega)]
              simp only [hs, h93]
              rw [if_neg (by decide)]
              simp [hl]
            · simp [h44, h93] at h
    · intro s m r h
      rw [parseMembers] at h
      have hws := skipWS_length s
      cases hs : skipWS s with
      | nil => rw [hs] at h; simp at h
      | cons q s1 =>
        rw [hs] at h hws
        simp only [List.length_cons] at hws
        simp only at h
        by_cases hq : q = 34
        · simp only [hq, if_true] at h
          split at h
          · simp at h
          · rename_i k s2 hk
            have hlk := parseStringBody_length _ _ _ _ (le_refl _) hk
            have hws2 := skipWS_length s2
            cases hs2 : skipWS s2 with
            | nil => rw [hs2] at h; simp at h
            | cons colon s3 =>
              rw [hs2] at h hws2
              simp only [List.length_cons] at hws2
              simp only at h
              by_cases hc : colon = 58
              · simp only [hc, if_true] at h
                split at h
                · simp at h
                · rename_i v r1 hv
                  obtain ⟨hl1, hfuel1⟩ := ihV _ _ _ hv
                  have hws3 := skipWS_length r1
                  cases hs3 : skipWS r1 with
                  | nil => rw [hs3] at h; simp at h
                  | cons c r2 =>
                    rw [hs3] at h hws3
                    simp only [List.length_cons] at hws3
                    simp only at h
                    by_cases h44 : c = 44
                    · simp only [h44, if_true, Option.map_eq_some', Prod.mk.injEq,
                        Prod.exists] at h
                      obtain ⟨a, b, hab, hm, hb⟩ := h
                      obtain ⟨hl2, hfuel2⟩ := ihM _ _ _ hab
                      subst hb
                      refine ⟨by omega, fun f2 hf2 => ?_⟩
                      obtain ⟨f3, rfl⟩ : ∃ f3, f2 = f3 + 1 := ⟨f2 - 1, by omega⟩
                      rw [parseMembers, hs]
                      simp only [hq, if_true, hk, hs2, hc]
                      rw [hfuel1 f3 (by omega)]
                      simp only [hs3, h44, if_true]
                      rw [hfuel2 f3 (by omega)]
                      simp [hm]
                    · by_cases h125 : c = 125
                      · simp only [h125, if_true] at h
                        rw [if_neg (by decide)] at h
                        simp only [Option.some.injEq, Prod.mk.injEq] at h
                        obtain ⟨hm, hr⟩ := h
                        subst hr
                        refine ⟨by omega, fun f2 hf2 => ?_⟩
                        obtain ⟨f3, rfl⟩ : ∃ f3, f2 = f3 + 1 := ⟨f2 - 1, by omega⟩
                        rw [parseMembers, hs]
                        simp only [hq, if_true, hk, hs2, hc]
                        rw [hfuel1 f3 (by omega)]
                        simp only [hs3, h125]
                        rw [if_neg (by decide)]
                        simp [hm]
                      · simp [h44, h125] at h
              · simp [hc] at h
        · simp [hq] at h

/-- The fuel that `jsonParse` gives is enough: a text that `parseValue` reads with
some fuel it reads, with the same result, with twice the length of the text
plus two. -/
theorem parseValue_fuel_enough (f : Nat) (s : JSString) (v : JSON) (r : JSString)
    (h : parseValue f s = some (v, r)) : parseValue (2 * s.length + 2) s = some (v, r) :=
  ((parse_fuel f).1 s v r h).2 _ (by omega)

/-- A text on which `jsonParse` fails is read by `parseValue` with no amount of
fuel as a value followed by white space only. -/
theorem jsonParse_none_all_fuel (s : JSString) (h : jsonParse s = none) (f : Nat) (v : JSON)
    (r : JSString) (hp : parseValue f s = some (v, r)) : (skipWS r).isEmpty = false := by
  rw [jsonParse, parseValue_fuel_enough f s v r hp] at h
  simp only at h
  cases hr : (skipWS r).isEmpty
  · rfl
  · rw [hr] at h
    simp at h

/-! ## Persistence -/

theorem persisted_saveTasks (s : State) : Persisted (saveTasks s) := by
  simp [Persisted, saveTasks, Storage.getItem, Storage.setItem]

theorem persisted_resetForm (s : State) (h : Persisted s) : Persisted (resetForm s) := h

theorem stringify_tasks_ne_nil (ts : List Task) : stringify (tasksToJSON ts) ≠ [] := by
  rw [tasksToJSON, stringify]
  exact List.cons_ne_nil _ _

theorem loadTasks_of_persisted (s : State) (h : Persisted s) :
    loadTasks s.localStorage = Except.ok (tasksToJSON s.tasks) := by
  unfold Persisted at h
  unfold loadTasks
  rw [h]
  simp only []
  have hne : (stringify (tasksToJSON s.tasks)).isEmpty = false := by
    cases hs : stringify (tasksToJSON s.tasks) with
    | nil => exact absurd hs (stringify_tasks_ne_nil _)
    | cons c r => rfl
  rw [hne, jsonParse_stringify_tasks]
  rfl

/-- C7: `createTask`, a confirmed `deleteTask`, and `updateTask` and
`toggleTaskCompletion` on an id that is present leave under the key `tasks`
the serialisation of the whole resulting collection; every operation keeps a
store whose stored value is the serialisation of its collection in that
condition; and in that condition `loadTasks` returns without error a value
that reads as the collection in memory, so that the constructor starts from
that collection. -/
theorem persistence_round_trip (s : State) (now : Int) (iso id : JSString)
    (taskData : TaskData) :
    Persisted (createTask s now iso taskData) ∧
    Persisted (deleteTask s true id) ∧
    ((∃ t ∈ s.tasks, t.id = id) → Persisted (updateTask s iso id taskData)) ∧
    ((∃ t ∈ s.tasks, t.id = id) → Persisted (toggleTaskCompletion s id)) ∧
    (Persisted s →
      Persisted (updateTask s iso id taskData) ∧ Persisted (toggleTaskCompletion s id) ∧
      Persisted (deleteTask s false id)) ∧
    (∀ s2 : State, Persisted s2 →
      s2.localStorage.getItem "tasks" = some (stringify (tasksToJSON s2.tasks)) ∧
      loadTasks s2.localStorage = Except.ok (tasksToJSON s2.tasks) ∧
      tasksOfJSON (tasksToJSON s2.tasks) = some s2.tasks ∧
      ∃ st, construct s2.localStorage = Constructed.store st ∧ st.tasks = s2.tasks) := by
  have hupd : (∃ t ∈ s.tasks, t.id = id) ∨ Persisted s →
      Persisted (updateTask s iso id taskData) := by
    intro h
    rcases firstIndex_cases s.tasks id with ⟨hnone, hall⟩ | ⟨i, old, hsome, hget, _, _⟩
    · rcases h with ⟨t, ht, hte⟩ | h
      · exact absurd hte (hall t ht)
      · simpa only [updateTask, hnone] using h
    · simp only [updateTask, hsome, hget]
      exact persisted_resetForm _ (persisted_saveTasks _)
  have htog : (∃ t ∈ s.tasks, t.id = id) ∨ Persisted s →
      Persisted (toggleTaskCompletion s id) := by
    intro h
    rcases firstIndex_cases s.tasks id with ⟨hnone, hall⟩ | ⟨i, old, hsome, hget, _, _⟩
    · rcases h with ⟨t, ht, hte⟩ | h
      · exact absurd hte (hall t ht)
      · simpa only [toggleTaskCompletion, hnone] using h
    · simp only [toggleTaskCompletion, hsome, hget]
      exact persisted_saveTasks _
  refine ⟨persisted_resetForm _ (persisted_saveTasks _), ?_, fun h => hupd (Or.inl h),
    fun h => htog (Or.inl h), fun h => ⟨hupd (Or.inr h), htog (Or.inr h), ?_⟩, ?_⟩
  · simp only [deleteTask, if_true]
    exact persisted_saveTasks _
  · simpa [deleteTask] using h
  · intro s2 h2
    refine ⟨h2, loadTasks_of_persisted s2 h2, tasksOfJSON_tasksToJSON _, ?_⟩
    simp only [construct, loadTasks_of_persisted s2 h2, tasksOfJSON_tasksToJSON]
    exact ⟨_, rfl, rfl⟩

/-- C6 as amended: `loadTasks` returns the empty array when the key `tasks`
is missing or holds the empty string, and the store then starts with the
empty collection; it returns the parsed value when the stored text is JSON;
and when the stored text is not empty and not JSON (no amount of fuel lets the
parser read it as one value), the `SyntaxError` of `JSON.parse` leaves
`loadTasks` and the constructor. -/
theorem loadTasks_outcomes (ls : Storage) :
    (ls.getItem "tasks" = none ∨ ls.getItem "tasks" = some [] →
      loadTasks ls = Except.ok (JSON.array JSONList.nil) ∧
      ∃ st, construct ls = Constructed.store st ∧ st.tasks = []) ∧
    (∀ text v, ls.getItem "tasks" = some text → text ≠ [] → jsonParse text = some v →
      loadTasks ls = Except.ok v) ∧
    (∀ text, ls.getItem "tasks" = some text → text ≠ [] → jsonParse text = none →
      loadTasks ls = Except.error "SyntaxError" ∧
      construct ls = Constructed.threw "SyntaxError" ∧
      ∀ f v r, parseValue f text = some (v, r) → (skipWS r).isEmpty = false) := by
  refine ⟨?_, ?_, ?_⟩
  · intro h
    have hl : loadTasks ls = Except.ok (JSON.array JSONList.nil) := by
      rcases h with h | h <;> simp [loadTasks, h]
    refine ⟨hl, ?_⟩
    simp only [construct, hl, tasksOfJSON, tasksOfJSONList]
    exact ⟨_, rfl, rfl⟩
  · intro text v h hne hp
    have : text.isEmpty = false := by
      cases text with
      | nil => exact absurd rfl hne
      | cons c r => rfl
    simp [loadTasks, h, this, hp]
  · intro text h hne hp
    have : text.isEmpty = false := by
      cases text with
      | nil => exact absurd rfl hne
      | cons c r => rfl
    have hl : loadTasks ls = Except.error "SyntaxError" := by
      simp [loadTasks, h, this, hp]
    exact ⟨hl, by simp only [construct, hl], jsonParse_none_all_fuel text hp⟩

/-- C6 refuted: with the text `oops` under the key `tasks`, which is not
JSON, `loadTasks` raises a `SyntaxError` and so does the constructor; no
store with the empty collection results. -/
theorem loadTasks_throws_on_corrupt_storage :
    jsonParse (utf16 "oops") = none ∧
    loadTasks (exampleStorage.setItem "tasks" (utf16 "oops")) = Except.error "SyntaxError" ∧
    construct (exampleStorage.setItem "tasks" (utf16 "oops")) =
      Constructed.threw "SyntaxError" := by
  refine ⟨rfl, rfl, rfl⟩

end TaskManager
